import Mathlib

/-!
# Verification of the Rush Hour solver (`src/Duck.py`)

Shallow embedding of the solver's data model and algorithms:
state representation, goal test, successor generation, state hashing,
and the uniform-cost search, together with proofs of the specified
properties (goal correctness, move legality, invariant preservation,
frame conditions, hashing, cost accounting, termination, optimality).

Python integers are modelled as `Int` where they can go negative
(cell coordinates) and as `Nat` where they cannot (`unit_cost` is the
spec's non-negative cost constant, §4.3, and all accumulated costs).
Python's value-level mutation is modelled functionally: `deepcopy`
followed by in-place edits becomes a pure function returning a new value,
so "the parent state is never mutated" is inherent in the model.
-/

namespace Duck

/-- A board is a list of rows, each a list of cell characters: `'.'` for an
empty cell, otherwise the identifier of the occupying vehicle. -/
abbrev Board := List (List Char)

/-- Per-vehicle record `{'positions': ..., 'orientation': ...}`. Positions are
(row, column) pairs ordered head to tail; orientation is the literal Python
string (`"horizontal"` / `"vertical"`). -/
structure VehicleInfo where
  positions : List (Int × Int)
  orientation : String
deriving DecidableEq

/-- A search state `{'board': ..., 'vehicles': ...}`; the vehicle table is an
association list in dict insertion order. -/
structure PyState where
  board : Board
  vehicles : List (Char × VehicleInfo)
deriving DecidableEq

/-- Board access `board[r][c]`. Python raises on an out-of-range index and wraps
a negative one; neither happens on the states the theorems below consider
(well-formed or search-reachable states), and the model returns the sentinel
`'#'` there — a character no well-formed board contains. -/
def getCell (b : Board) (r c : Int) : Char :=
  if 0 ≤ r ∧ 0 ≤ c then (b.getD r.toNat []).getD c.toNat '#' else '#'

/-- Board write `board[r][c] = ch`, as a functional update (out-of-range writes,
which Python would reject, are no-ops; they never occur in the verified uses). -/
def setCell (b : Board) (r c : Int) (ch : Char) : Board :=
  if 0 ≤ r ∧ 0 ≤ c then b.set r.toNat ((b.getD r.toNat []).set c.toNat ch) else b

/-- Dict lookup `vehicles[v]`. A missing key would raise in Python; in the
program the key always comes from iterating the same dict, and the model
returns an empty record in the impossible case. -/
def lookupVeh (vs : List (Char × VehicleInfo)) (v : Char) : VehicleInfo :=
  match vs.find? (fun kv => kv.1 = v) with
  | some kv => kv.2
  | none => ⟨[], ""⟩

/-- In-place dict value update `vehicles[moved]['positions'] = new_positions`;
Python dicts keep the entry's position on overwrite, hence the order-preserving
map. -/
def updateVeh (vs : List (Char × VehicleInfo)) (v : Char) (ps : List (Int × Int)) :
    List (Char × VehicleInfo) :=
  vs.map fun kv => if kv.1 = v then (kv.1, ⟨ps, kv.2.orientation⟩) else kv

/-- The `RushHourGame` object with the fields `__init__` assigns. -/
structure RushHourGame where
  board : Board
  vehicles : List (Char × VehicleInfo)
  size : Nat
  exit_row : Nat
  exit_col : Int
  unit_cost : Nat
deriving DecidableEq

/-- `RushHourGame.__init__`: stores the arguments and derives `size`,
`exit_row = size // 2` and `exit_col = size - 1`. It performs no input
validation whatsoever. -/
def RushHourGame.init (board : Board) (vehicles : List (Char × VehicleInfo))
    (unit_cost : Nat) : RushHourGame :=
  { board := board, vehicles := vehicles, size := board.length,
    exit_row := board.length / 2, exit_col := (board.length : Int) - 1,
    unit_cost := unit_cost }

/-- `RushHourGame.is_goal`: scans every vehicle with identifier `'X'` and every
one of its cells, reporting a goal when the vehicle is horizontal and some cell's
column equals `exit_col`. -/
def RushHourGame.is_goal (g : RushHourGame) (s : PyState) : Bool :=
  s.vehicles.any fun kv =>
    kv.1 == 'X' && kv.2.positions.any fun p =>
      decide (kv.2.orientation = "horizontal") && decide (p.2 = g.exit_col)

/-- `RushHourGame.is_valid_move`: every new cell must be empty or belong to the
moving vehicle's old cells. -/
def is_valid_move (b : Board) (oldPs newPs : List (Int × Int)) : Bool :=
  newPs.all fun p => decide (getCell b p.1 p.2 = '.') || decide (p ∈ oldPs)

/-- `RushHourGame.create_new_state`: deep-copy the parent, clear the moved
vehicle's old cells, write its identifier into the new cells, update the
vehicle table. -/
def create_new_state (s : PyState) (moved : Char) (newPs : List (Int × Int)) :
    PyState :=
  let oldPs := (lookupVeh s.vehicles moved).positions
  let b1 := oldPs.foldl (fun acc p => setCell acc p.1 p.2 '.') s.board
  let b2 := newPs.foldl (fun acc p => setCell acc p.1 p.2 moved) b1
  { board := b2, vehicles := updateVeh s.vehicles moved newPs }

/-- The body of the `get_successors` vehicle loop: the candidate single-cell
moves of one vehicle, in source order (left then right, or up then down; a
vehicle with any other orientation string generates nothing). -/
def vehicleMoves (g : RushHourGame) (s : PyState) (kv : Char × VehicleInfo) :
    List (PyState × Nat) :=
  let positions := kv.2.positions
  let move_cost := positions.length * g.unit_cost
  if kv.2.orientation = "horizontal" then
    let leftMoves :=
      let lp := positions.headD (0, 0)
      let nc := lp.2 - 1
      if 0 ≤ nc ∧ getCell s.board lp.1 nc = '.' then
        let nps := positions.map fun p => (p.1, p.2 - 1)
        if is_valid_move s.board positions nps then
          [(create_new_state s kv.1 nps, move_cost)]
        else []
      else []
    let rightMoves :=
      let rp := positions.getLastD (0, 0)
      let nc := rp.2 + 1
      if nc < (g.size : Int) ∧ getCell s.board rp.1 nc = '.' then
        let nps := positions.map fun p => (p.1, p.2 + 1)
        if is_valid_move s.board positions nps then
          [(create_new_state s kv.1 nps, move_cost)]
        else []
      else []
    leftMoves ++ rightMoves
  else if kv.2.orientation = "vertical" then
    let upMoves :=
      let tp := positions.headD (0, 0)
      let nr := tp.1 - 1
      if 0 ≤ nr ∧ getCell s.board nr tp.2 = '.' then
        let nps := positions.map fun p => (p.1 - 1, p.2)
        if is_valid_move s.board positions nps then
          [(create_new_state s kv.1 nps, move_cost)]
        else []
      else []
    let downMoves :=
      let bp := positions.getLastD (0, 0)
      let nr := bp.1 + 1
      if nr < (g.size : Int) ∧ getCell s.board nr bp.2 = '.' then
        let nps := positions.map fun p => (p.1 + 1, p.2)
        if is_valid_move s.board positions nps then
          [(create_new_state s kv.1 nps, move_cost)]
        else []
      else []
    upMoves ++ downMoves
  else []

/-- `RushHourGame.get_successors`: all legal one-cell moves of all vehicles
with their incremental cost, appended in vehicle-table order. -/
def get_successors (g : RushHourGame) (s : PyState) : List (PyState × Nat) :=
  s.vehicles.flatMap (vehicleMoves g s)

/-- Canonical key type of `get_state_hash`: the board tuple paired with the
sorted `(id, positions, orientation)` vehicle tuples. -/
abbrev StateKey := Board × List (Char × List (Int × Int) × String)

/-- `sorted(state['vehicles'].items())`: Python compares the `(key, value)`
tuples, and with distinct keys the comparison never reaches the values, so
this is a sort by identifier. -/
def sortVehicles (vs : List (Char × VehicleInfo)) : List (Char × VehicleInfo) :=
  List.insertionSort (fun a b => a.1 ≤ b.1) vs

/-- `get_state_hash` from `uniform_cost_search`. -/
def get_state_hash (s : PyState) : StateKey :=
  (s.board,
   (sortVehicles s.vehicles).map fun kv => (kv.1, kv.2.positions, kv.2.orientation))

/-- One recorded path step `(moved_vehicle, direction, cumulative_cost)`; the
vehicle is `none` when the diff scan found no moved vehicle (Python `None`). -/
abbrev LogEntry := Option Char × String × Nat

/-- A frontier entry `(total_cost, state_hash, path)`. -/
abbrev FrontierEntry := Nat × StateKey × List LogEntry

/-- Result of `uniform_cost_search`: `solution path total_cost` models the
success return `(path, total_cost)`; `noSolution` models `(None, float('inf'))`;
`crash` marks the one place Python could raise (a repository miss), proved
unreachable below. -/
inductive SearchResult where
  | solution : List LogEntry → Nat → SearchResult
  | noSolution : SearchResult
  | crash : SearchResult
deriving DecidableEq

/-- The moved-vehicle scan: the first vehicle in parent-table order whose
positions differ between parent and child. -/
def findMoved (cur child : PyState) : Option Char :=
  (cur.vehicles.find? fun kv =>
    decide ((lookupVeh child.vehicles kv.1).positions ≠ kv.2.positions)).map (·.1)

/-- The direction computation: `""` when no moved vehicle was found (Python's
falsy `None`), otherwise a comparison of the vehicle's first position in parent
and child. -/
def dirOf (cur child : PyState) (mv : Option Char) : String :=
  match mv with
  | none => ""
  | some v =>
    let oldp := (lookupVeh cur.vehicles v).positions.headD (0, 0)
    let newp := (lookupVeh child.vehicles v).positions.headD (0, 0)
    if (lookupVeh cur.vehicles v).orientation = "horizontal" then
      if oldp.2 < newp.2 then "right" else "left"
    else
      if oldp.1 < newp.1 then "down" else "up"

/-- The state repository, a dict keyed by canonical hash. -/
abbrev Repo := List (StateKey × PyState)

/-- Dict lookup `state_repository[k]`. -/
def lookupRepo (repo : Repo) (k : StateKey) : Option PyState :=
  (repo.find? fun e => decide (e.1 = k)).map (·.2)

/-- Dict assignment `state_repository[k] = s` (overwrite in place or append). -/
def insertRepo (repo : Repo) (k : StateKey) (s : PyState) : Repo :=
  if repo.any fun e => decide (e.1 = k) then
    repo.map fun e => if e.1 = k then (k, s) else e
  else repo ++ [(k, s)]

/-- `heapq.heappop`: removes a minimum-cost entry. Python's heap orders entries
by the whole `(cost, hash, path)` tuple; none of the verified claims depends on
which among several equal-cost entries is popped, and the model takes the
earliest minimum-cost one. -/
def popMin : List FrontierEntry → Option (FrontierEntry × List FrontierEntry)
  | [] => none
  | e :: es =>
    match popMin es with
    | none => some (e, [])
    | some (m, rest) => if e.1 ≤ m.1 then some (e, es) else some (m, e :: rest)

/-- The batch of children pushed while expanding `current_state` at cumulative
cost `total_cost` with path `path`: each successor not in `explored'` yields its
frontier entry together with the state stored into the repository. -/
def expandChildren (g : RushHourGame) (current_state : PyState) (total_cost : Nat)
    (path : List LogEntry) (explored' : List StateKey) :
    List (FrontierEntry × PyState) :=
  (get_successors g current_state).filterMap fun sc =>
    let successor_hash := get_state_hash sc.1
    if successor_hash ∈ explored' then none
    else
      let new_cost := total_cost + sc.2
      let moved := findMoved current_state sc.1
      let dir := dirOf current_state sc.1 moved
      some ((new_cost, successor_hash, path ++ [(moved, dir, new_cost)]), sc.1)

/-- The `while frontier:` loop of `uniform_cost_search`, with explicit fuel
(one unit per pop); `none` means the fuel ran out before the loop finished. -/
def ucsLoop (g : RushHourGame) :
    Nat → List FrontierEntry → List StateKey → Repo → Option SearchResult
  | 0, _, _, _ => none
  | fuel + 1, frontier, explored, repo =>
    match popMin frontier with
    | none => some .noSolution
    | some ((total_cost, current_hash, path), rest) =>
      match lookupRepo repo current_hash with
      | none => some .crash
      | some current_state =>
        if current_hash ∈ explored then
          ucsLoop g fuel rest explored repo
        else
          let explored' := current_hash :: explored
          if g.is_goal current_state then
            some (.solution path total_cost)
          else
            let children := expandChildren g current_state total_cost path explored'
            ucsLoop g fuel
              (rest ++ children.map (·.1))
              explored'
              (children.foldl (fun r c => insertRepo r c.1.2.1 c.2) repo)

/-- The initial search state built from the game's (deep-copied) board and
vehicle table. -/
def initState (g : RushHourGame) : PyState :=
  { board := g.board, vehicles := g.vehicles }

/-- `uniform_cost_search(game)`, with explicit fuel for the loop. -/
def uniform_cost_search (g : RushHourGame) (fuel : Nat) : Option SearchResult :=
  let state_hash := get_state_hash (initState g)
  ucsLoop g fuel [(0, state_hash, [])] [] [(state_hash, initState g)]

/-! ## Well-formedness (the data-model invariant, spec §3)

A well-formed state has a board that is exactly the rendering of its vehicle
table, distinct vehicle identifiers none of which is the empty marker, each
vehicle a contiguous in-bounds run along its declared orientation, and
pairwise disjoint vehicles. -/

/-- The contiguous horizontal run of `L` cells with head `(r, c)`. -/
def hRun (r c : Int) (L : Nat) : List (Int × Int) :=
  (List.range L).map fun (i : Nat) => (r, c + (i : Int))

/-- The contiguous vertical run of `L` cells with head `(r, c)`. -/
def vRun (r c : Int) (L : Nat) : List (Int × Int) :=
  (List.range L).map fun (i : Nat) => (r + (i : Int), c)

/-- A single vehicle is well-formed for grid size `N`: nonempty, contiguous
along its orientation (head to tail), and entirely inside the grid. -/
def WFVehicle (N : Nat) (info : VehicleInfo) : Prop :=
  0 < info.positions.length ∧
  0 ≤ (info.positions.headD (0, 0)).1 ∧ 0 ≤ (info.positions.headD (0, 0)).2 ∧
  ((info.orientation = "horizontal" ∧
      info.positions =
        hRun (info.positions.headD (0, 0)).1 (info.positions.headD (0, 0)).2
          info.positions.length ∧
      (info.positions.headD (0, 0)).1 < (N : Int) ∧
      (info.positions.headD (0, 0)).2 + info.positions.length ≤ (N : Int)) ∨
   (info.orientation = "vertical" ∧
      info.positions =
        vRun (info.positions.headD (0, 0)).1 (info.positions.headD (0, 0)).2
          info.positions.length ∧
      (info.positions.headD (0, 0)).2 < (N : Int) ∧
      (info.positions.headD (0, 0)).1 + info.positions.length ≤ (N : Int)))

instance (N : Nat) (info : VehicleInfo) : Decidable (WFVehicle N info) := by
  unfold WFVehicle; infer_instance

/-- The first vehicle (in table order) occupying cell `(r, c)`, or `'.'`. -/
def ownerChar (vs : List (Char × VehicleInfo)) (r c : Int) : Char :=
  match vs.find? (fun kv => decide ((r, c) ∈ kv.2.positions)) with
  | some kv => kv.1
  | none => '.'

/-- The `N × N` board determined by a vehicle table. -/
def render (N : Nat) (vs : List (Char × VehicleInfo)) : Board :=
  (List.range N).map fun (r : Nat) =>
    (List.range N).map fun (c : Nat) => ownerChar vs (r : Int) (c : Int)

/-- Two vehicles occupy no common cell. -/
def DisjV (a b : VehicleInfo) : Prop := ∀ p ∈ a.positions, p ∉ b.positions

instance (a b : VehicleInfo) : Decidable (DisjV a b) := by
  unfold DisjV; infer_instance

/-- The full state invariant for grid size `N`. -/
def WFState (N : Nat) (s : PyState) : Prop :=
  s.board = render N s.vehicles ∧
  (s.vehicles.map Prod.fst).Nodup ∧
  (∀ kv ∈ s.vehicles, kv.1 ≠ '.' ∧ WFVehicle N kv.2) ∧
  s.vehicles.Pairwise (fun a b => DisjV a.2 b.2)

instance (N : Nat) (s : PyState) : Decidable (WFState N s) := by
  unfold WFState; infer_instance

/-- Unfolded form of the goal test: some `'X'` entry is horizontal with some
cell in the exit column. -/
lemma is_goal_eq_true_iff (g : RushHourGame) (s : PyState) :
    g.is_goal s = true ↔
      ∃ info, ('X', info) ∈ s.vehicles ∧ info.orientation = "horizontal" ∧
        ∃ p ∈ info.positions, p.2 = g.exit_col := by
  simp only [RushHourGame.is_goal, List.any_eq_true, Bool.and_eq_true,
    beq_iff_eq, decide_eq_true_eq]
  constructor
  · rintro ⟨kv, hmem, hX, p, hp, hh, hc⟩
    refine ⟨kv.2, ?_, hh, p, hp, hc⟩
    have hkv : kv = ('X', kv.2) := by cases kv; simp_all
    rwa [hkv] at hmem
  · rintro ⟨info, hmem, hh, p, hp, hc⟩
    exact ⟨('X', info), hmem, rfl, p, hp, hh, hc⟩


lemma mem_hRun {r c : Int} {L : Nat} {p : Int × Int} :
    p ∈ hRun r c L ↔ p.1 = r ∧ c ≤ p.2 ∧ p.2 < c + L := by
  constructor
  · intro hp
    simp only [hRun, List.mem_map, List.mem_range] at hp
    obtain ⟨i, hi, rfl⟩ := hp
    exact ⟨rfl, by omega, by simp; omega⟩
  · rintro ⟨h1, h2, h3⟩
    simp only [hRun, List.mem_map, List.mem_range]
    obtain ⟨a, b⟩ := p
    simp only at h1 h2 h3
    subst h1
    exact ⟨(b - c).toNat, by omega, by simp [Prod.ext_iff]; omega⟩

lemma mem_vRun {r c : Int} {L : Nat} {p : Int × Int} :
    p ∈ vRun r c L ↔ p.2 = c ∧ r ≤ p.1 ∧ p.1 < r + L := by
  constructor
  · intro hp
    simp only [vRun, List.mem_map, List.mem_range] at hp
    obtain ⟨i, hi, rfl⟩ := hp
    exact ⟨rfl, by omega, by simp; omega⟩
  · rintro ⟨h1, h2, h3⟩
    simp only [vRun, List.mem_map, List.mem_range]
    obtain ⟨a, b⟩ := p
    simp only at h1 h2 h3
    subst h1
    exact ⟨(a - r).toNat, by omega, by simp [Prod.ext_iff]; omega⟩

lemma length_hRun {r c : Int} {L : Nat} : (hRun r c L).length = L := by simp [hRun]

lemma length_vRun {r c : Int} {L : Nat} : (vRun r c L).length = L := by simp [vRun]

lemma headD_hRun {r c : Int} {L : Nat} (hL : 0 < L) :
    (hRun r c L).headD (0, 0) = (r, c) := by
  obtain ⟨n, rfl⟩ : ∃ n, L = n + 1 := ⟨L - 1, by omega⟩
  simp [hRun, List.range_succ_eq_map]

lemma headD_vRun {r c : Int} {L : Nat} (hL : 0 < L) :
    (vRun r c L).headD (0, 0) = (r, c) := by
  obtain ⟨n, rfl⟩ : ∃ n, L = n + 1 := ⟨L - 1, by omega⟩
  simp [vRun, List.range_succ_eq_map]

lemma getLastD_hRun {r c : Int} {L : Nat} (hL : 0 < L) :
    (hRun r c L).getLastD (0, 0) = (r, c + (L : Int) - 1) := by
  obtain ⟨n, rfl⟩ : ∃ n, L = n + 1 := ⟨L - 1, by omega⟩
  simp [hRun, List.range_succ, Prod.ext_iff]
  omega

lemma getLastD_vRun {r c : Int} {L : Nat} (hL : 0 < L) :
    (vRun r c L).getLastD (0, 0) = (r + (L : Int) - 1, c) := by
  obtain ⟨n, rfl⟩ : ∃ n, L = n + 1 := ⟨L - 1, by omega⟩
  simp [vRun, List.range_succ, Prod.ext_iff]
  omega

lemma shift_hRun_left {r c : Int} {L : Nat} :
    (hRun r c L).map (fun p => (p.1, p.2 - 1)) = hRun r (c - 1) L := by
  simp only [hRun, List.map_map]
  exact List.map_congr_left fun i _ => by simp [Prod.ext_iff]; omega

lemma shift_hRun_right {r c : Int} {L : Nat} :
    (hRun r c L).map (fun p => (p.1, p.2 + 1)) = hRun r (c + 1) L := by
  simp only [hRun, List.map_map]
  exact List.map_congr_left fun i _ => by simp [Prod.ext_iff]; omega

lemma shift_vRun_up {r c : Int} {L : Nat} :
    (vRun r c L).map (fun p => (p.1 - 1, p.2)) = vRun (r - 1) c L := by
  simp only [vRun, List.map_map]
  exact List.map_congr_left fun i _ => by simp [Prod.ext_iff]; omega

lemma shift_vRun_down {r c : Int} {L : Nat} :
    (vRun r c L).map (fun p => (p.1 + 1, p.2)) = vRun (r + 1) c L := by
  simp only [vRun, List.map_map]
  exact List.map_congr_left fun i _ => by simp [Prod.ext_iff]; omega

/-- A board with `N` rows of `N` cells each. -/
def Shape (N : Nat) (b : Board) : Prop :=
  b.length = N ∧ ∀ row ∈ b, row.length = N

lemma getD_map_range {α : Type} (f : Nat → α) (d : α) (i N : Nat) :
    (((List.range N).map f).getD i d) = if i < N then f i else d := by
  rw [List.getD_eq_getElem?_getD, List.getElem?_map]
  by_cases h : i < N
  · rw [List.getElem?_range h]; simp [h]
  · rw [List.getElem?_eq_none (by simpa using h)]; simp [h]

lemma shape_render {N : Nat} {vs : List (Char × VehicleInfo)} :
    Shape N (render N vs) := by
  refine ⟨by simp [render], fun row hrow => ?_⟩
  simp only [render, List.mem_map] at hrow
  obtain ⟨r, _, rfl⟩ := hrow
  simp

lemma getCell_render {N : Nat} {vs : List (Char × VehicleInfo)} (r c : Int) :
    getCell (render N vs) r c =
      if 0 ≤ r ∧ r < N ∧ 0 ≤ c ∧ c < N then ownerChar vs r c else '#' := by
  unfold getCell render
  by_cases h1 : 0 ≤ r ∧ 0 ≤ c
  · rw [if_pos h1, getD_map_range]
    by_cases h2 : r.toNat < N
    · rw [if_pos h2, getD_map_range]
      by_cases h3 : c.toNat < N
      · rw [if_pos h3, if_pos (by omega)]
        congr 1 <;> omega
      · rw [if_neg h3, if_neg (by omega)]
    · rw [if_neg h2]
      simp only [List.getD_nil]
      rw [if_neg (by omega)]
  · rw [if_neg h1, if_neg (by omega)]

lemma getCell_out_of_shape {N : Nat} {b : Board} (hb : Shape N b) {r c : Int}
    (h : ¬(0 ≤ r ∧ r < N ∧ 0 ≤ c ∧ c < N)) : getCell b r c = '#' := by
  obtain ⟨hb1, hb2⟩ := hb
  unfold getCell
  by_cases h1 : 0 ≤ r ∧ 0 ≤ c
  · rw [if_pos h1]
    by_cases h2 : r.toNat < b.length
    · have hrow : b.getD r.toNat [] ∈ b := by
        rw [List.getD_eq_getElem?_getD, List.getElem?_eq_getElem h2]
        exact List.getElem_mem h2
      have hlen : (b.getD r.toNat []).length = N := hb2 _ hrow
      have hcN : (N : Int) ≤ c := by
        by_contra hc
        exact h ⟨h1.1, by omega, h1.2, by omega⟩
      rw [List.getD_eq_getElem?_getD (b.getD r.toNat []),
        List.getElem?_eq_none (by omega)]
      rfl
    · have hnil : b.getD r.toNat [] = [] := by
        rw [List.getD_eq_getElem?_getD, List.getElem?_eq_none (by omega)]
        rfl
      rw [hnil]
      rfl
  · rw [if_neg h1]

lemma shape_setCell {N : Nat} {b : Board} (hb : Shape N b) (r c : Int) (ch : Char) :
    Shape N (setCell b r c ch) := by
  unfold setCell
  by_cases h1 : 0 ≤ r ∧ 0 ≤ c
  · rw [if_pos h1]
    by_cases h2 : r.toNat < b.length
    · refine ⟨by simp [hb.1], fun row hrow => ?_⟩
      rcases List.mem_or_eq_of_mem_set hrow with h | h
      · exact hb.2 _ h
      · subst h
        rw [List.length_set]
        refine hb.2 _ ?_
        rw [List.getD_eq_getElem?_getD, List.getElem?_eq_getElem h2]
        exact List.getElem_mem h2
    · rw [List.set_eq_of_length_le (by omega)]; exact hb
  · rw [if_neg h1]; exact hb

lemma getCell_setCell {N : Nat} {b : Board} (hb : Shape N b) {r c : Int} (ch : Char)
    {r' c' : Int} (h' : 0 ≤ r' ∧ r' < N ∧ 0 ≤ c' ∧ c' < N) :
    getCell (setCell b r c ch) r' c' =
      if r = r' ∧ c = c' then ch else getCell b r' c' := by
  obtain ⟨hb1, hb2⟩ := hb
  obtain ⟨h'1, h'2, h'3, h'4⟩ := h'
  have hrowlen : ∀ i : Nat, i < N → (b.getD i []).length = N := by
    intro i hi
    refine hb2 _ ?_
    rw [List.getD_eq_getElem?_getD, List.getElem?_eq_getElem (by omega)]
    exact List.getElem_mem _
  unfold setCell getCell
  by_cases hrc : 0 ≤ r ∧ 0 ≤ c
  · rw [if_pos hrc, if_pos (show 0 ≤ r' ∧ 0 ≤ c' from ⟨h'1, h'3⟩)]
    by_cases hr : r.toNat = r'.toNat
    · have hset : (b.set r.toNat ((b.getD r.toNat []).set c.toNat ch)).getD r'.toNat [] =
          (b.getD r.toNat []).set c.toNat ch := by
        rw [List.getD_eq_getElem?_getD, ← hr, List.getElem?_set, if_pos rfl,
          if_pos (by omega)]
        rfl
      rw [hset]
      by_cases hc : c.toNat = c'.toNat
      · rw [if_pos (show r = r' ∧ c = c' from ⟨by omega, by omega⟩)]
        rw [List.getD_eq_getElem?_getD, List.getElem?_set, if_pos hc,
          if_pos (by rw [hrowlen r.toNat (by omega)]; omega)]
        rfl
      · rw [if_neg (show ¬(r = r' ∧ c = c') by rintro ⟨e1, e2⟩; exact hc (by omega))]
        rw [List.getD_eq_getElem?_getD, List.getElem?_set, if_neg hc, hr,
          ← List.getD_eq_getElem?_getD,
          if_pos (show 0 ≤ r' ∧ 0 ≤ c' from ⟨h'1, h'3⟩)]
    · have hset : (b.set r.toNat ((b.getD r.toNat []).set c.toNat ch)).getD r'.toNat [] =
          b.getD r'.toNat [] := by
        rw [List.getD_eq_getElem?_getD, List.getElem?_set, if_neg hr,
          ← List.getD_eq_getElem?_getD]
      rw [hset, if_neg (show ¬(r = r' ∧ c = c') by rintro ⟨e1, e2⟩; exact hr (by omega)),
        if_pos (show 0 ≤ r' ∧ 0 ≤ c' from ⟨h'1, h'3⟩)]
  · rw [if_neg hrc,
      if_neg (show ¬(r = r' ∧ c = c') by rintro ⟨e1, e2⟩; exact hrc ⟨by omega, by omega⟩),
      if_pos (show 0 ≤ r' ∧ 0 ≤ c' from ⟨h'1, h'3⟩)]

lemma shape_foldl_setCell {N : Nat} {b : Board} (hb : Shape N b)
    (ps : List (Int × Int)) (ch : Char) :
    Shape N (ps.foldl (fun acc p => setCell acc p.1 p.2 ch) b) := by
  induction ps generalizing b with
  | nil => exact hb
  | cons p ps ih => exact ih (shape_setCell hb p.1 p.2 ch)

lemma getCell_foldl_setCell {N : Nat} {b : Board} (hb : Shape N b)
    (ps : List (Int × Int)) (ch : Char) {r' c' : Int}
    (h' : 0 ≤ r' ∧ r' < N ∧ 0 ≤ c' ∧ c' < N) :
    getCell (ps.foldl (fun acc p => setCell acc p.1 p.2 ch) b) r' c' =
      if (r', c') ∈ ps then ch else getCell b r' c' := by
  induction ps generalizing b with
  | nil => simp
  | cons p ps ih =>
    rw [List.foldl_cons, ih (shape_setCell hb p.1 p.2 ch)]
    by_cases hmem : (r', c') ∈ ps
    · rw [if_pos hmem, if_pos (List.mem_cons_of_mem _ hmem)]
    · rw [if_neg hmem, getCell_setCell hb ch h']
      by_cases hp : p.1 = r' ∧ p.2 = c'
      · rw [if_pos hp,
          if_pos (by
            obtain ⟨a, b'⟩ := p
            simp only at hp
            rw [List.mem_cons]
            left
            rw [hp.1, hp.2])]
      · rw [if_neg hp,
          if_neg (by
            rw [List.mem_cons]
            rintro (he | hm)
            · obtain ⟨a, b'⟩ := p
              simp only [Prod.mk.injEq] at he
              exact hp ⟨he.1.symm, he.2.symm⟩
            · exact hmem hm)]

lemma getCell_clear_write {N : Nat} {b : Board} (hb : Shape N b)
    (oldPs newPs : List (Int × Int)) (v : Char) {r' c' : Int}
    (h' : 0 ≤ r' ∧ r' < N ∧ 0 ≤ c' ∧ c' < N) :
    getCell (newPs.foldl (fun acc p => setCell acc p.1 p.2 v)
        (oldPs.foldl (fun acc p => setCell acc p.1 p.2 '.') b)) r' c' =
      if (r', c') ∈ newPs then v
      else if (r', c') ∈ oldPs then '.' else getCell b r' c' := by
  rw [getCell_foldl_setCell (shape_foldl_setCell hb oldPs '.') newPs v h',
    getCell_foldl_setCell hb oldPs '.' h']

lemma ownerChar_eq_of_mem {vs : List (Char × VehicleInfo)}
    (hpw : vs.Pairwise fun a b => DisjV a.2 b.2) {v : Char} {info : VehicleInfo}
    (hv : (v, info) ∈ vs) {p : Int × Int} (hp : p ∈ info.positions) :
    ownerChar vs p.1 p.2 = v := by
  induction vs with
  | nil => cases hv
  | cons kv vs ih =>
    rcases List.mem_cons.mp hv with he | hv'
    · unfold ownerChar
      rw [List.find?_cons_of_pos _ (by subst he; simpa [Prod.mk.eta] using hp)]
      rw [← he]
    · unfold ownerChar
      rw [List.find?_cons_of_neg _ (by
        have hdisj : DisjV kv.2 info := (List.pairwise_cons.mp hpw).1 _ hv'
        simp only [decide_eq_true_eq, Prod.mk.eta]
        intro hcov
        exact absurd hp (hdisj p hcov))]
      exact ih (List.pairwise_cons.mp hpw).2 hv'

lemma ownerChar_eq_dot {vs : List (Char × VehicleInfo)} {r c : Int}
    (h : ∀ kv ∈ vs, (r, c) ∉ kv.2.positions) : ownerChar vs r c = '.' := by
  unfold ownerChar
  rw [List.find?_eq_none.mpr (by intro kv hkv; simpa using h kv hkv)]

lemma covered_ownerChar_ne_dot {vs : List (Char × VehicleInfo)}
    (hids : ∀ kv ∈ vs, kv.1 ≠ '.') {p : Int × Int} {kv : Char × VehicleInfo}
    (hkv : kv ∈ vs) (hp : p ∈ kv.2.positions) : ownerChar vs p.1 p.2 ≠ '.' := by
  unfold ownerChar
  cases hfind : vs.find? (fun e => decide ((p.1, p.2) ∈ e.2.positions)) with
  | none =>
    have hno := List.find?_eq_none.mp hfind kv hkv
    simp only [decide_eq_true_eq, Prod.mk.eta] at hno
    exact absurd hp hno
  | some e =>
    exact hids e (List.mem_of_find?_eq_some hfind)

/-- In a well-formed state an in-bounds empty cell is covered by no vehicle. -/
lemma not_covered_of_getCell_dot {N : Nat} {s : PyState} (hwf : WFState N s)
    {p : Int × Int} (hin : 0 ≤ p.1 ∧ p.1 < N ∧ 0 ≤ p.2 ∧ p.2 < N)
    (hdot : getCell s.board p.1 p.2 = '.') :
    ∀ kv ∈ s.vehicles, p ∉ kv.2.positions := by
  obtain ⟨hb, hnd, hids, hpw⟩ := hwf
  intro kv hkv hp
  rw [hb, getCell_render, if_pos hin] at hdot
  exact covered_ownerChar_ne_dot (fun e he => (hids e he).1) hkv hp hdot

/-! ## The spec's description of successor generation (§4.2)

`specSuccessors` restates the spec's words — for each vehicle, the two unit
moves along its orientation, a move being legal iff the single entered cell is
in-bounds and empty or owned by the moving vehicle itself — to be compared
with the translated `get_successors`. -/

/-- A unit move direction. -/
inductive Dir where
  | left
  | right
  | up
  | down
deriving DecidableEq

/-- The two directions along a vehicle's orientation. -/
def specDirs (o : String) : List Dir :=
  if o = "horizontal" then [Dir.left, Dir.right]
  else if o = "vertical" then [Dir.up, Dir.down] else []

/-- The occupied-cell sequence shifted by one unit. -/
def shiftPs (ps : List (Int × Int)) : Dir → List (Int × Int)
  | Dir.left => ps.map fun p => (p.1, p.2 - 1)
  | Dir.right => ps.map fun p => (p.1, p.2 + 1)
  | Dir.up => ps.map fun p => (p.1 - 1, p.2)
  | Dir.down => ps.map fun p => (p.1 + 1, p.2)

/-- The single cell entered by a unit move: one beyond the head (left/up) or
one beyond the tail (right/down). -/
def enteringCell (ps : List (Int × Int)) : Dir → Int × Int
  | Dir.left => ((ps.headD (0, 0)).1, (ps.headD (0, 0)).2 - 1)
  | Dir.right => ((ps.getLastD (0, 0)).1, (ps.getLastD (0, 0)).2 + 1)
  | Dir.up => ((ps.headD (0, 0)).1 - 1, (ps.headD (0, 0)).2)
  | Dir.down => ((ps.getLastD (0, 0)).1 + 1, (ps.getLastD (0, 0)).2)

/-- Cell inside the `N × N` grid. -/
def InB (N : Nat) (p : Int × Int) : Prop :=
  0 ≤ p.1 ∧ p.1 < N ∧ 0 ≤ p.2 ∧ p.2 < N

instance (N : Nat) (p : Int × Int) : Decidable (InB N p) := by
  unfold InB; infer_instance

/-- The spec's move-legality condition: the entered cell is within grid bounds
and is either empty or already occupied by the moving vehicle itself. -/
def specLegal (N : Nat) (b : Board) (info : VehicleInfo) (d : Dir) : Prop :=
  InB N (enteringCell info.positions d) ∧
  (getCell b (enteringCell info.positions d).1 (enteringCell info.positions d).2 = '.' ∨
    enteringCell info.positions d ∈ info.positions)

instance (N : Nat) (b : Board) (info : VehicleInfo) (d : Dir) :
    Decidable (specLegal N b info d) := by
  unfold specLegal; infer_instance

/-- The spec's successor list: for every vehicle, the legal unit moves along
its orientation, each a fresh state with cost length times unit cost. -/
def specSuccessors (g : RushHourGame) (s : PyState) : List (PyState × Nat) :=
  s.vehicles.flatMap fun kv =>
    (specDirs kv.2.orientation).filterMap fun d =>
      if specLegal g.size s.board kv.2 d then
        some (create_new_state s kv.1 (shiftPs kv.2.positions d),
          kv.2.positions.length * g.unit_cost)
      else none

lemma wfVehicle_elim {N : Nat} {info : VehicleInfo} (hv : WFVehicle N info) :
    ∃ r0 c0 : Int, ∃ L : Nat, 0 < L ∧ 0 ≤ r0 ∧ 0 ≤ c0 ∧ info.positions.length = L ∧
      ((info.orientation = "horizontal" ∧ info.positions = hRun r0 c0 L ∧
          r0 < N ∧ c0 + L ≤ N) ∨
       (info.orientation = "vertical" ∧ info.positions = vRun r0 c0 L ∧
          c0 < N ∧ r0 + L ≤ N)) := by
  obtain ⟨hL, h1, h2, hcase⟩ := hv
  exact ⟨_, _, _, hL, h1, h2, rfl, hcase⟩

lemma filterMap_pair {α β : Type} (f : α → Option β) (d1 d2 : α) :
    List.filterMap f [d1, d2] = (f d1).toList ++ (f d2).toList := by
  cases h1 : f d1 <;> cases h2 : f d2 <;> simp [List.filterMap_cons, h1, h2]

lemma toList_ite {β : Type} (P : Prop) [Decidable P] (x : β) :
    (if P then some x else none : Option β).toList = if P then [x] else [] := by
  split <;> simp

lemma valid_move_hRun_left {b : Board} {r0 c0 : Int} {L : Nat}
    (hdot : getCell b r0 (c0 - 1) = '.') :
    is_valid_move b (hRun r0 c0 L) (hRun r0 (c0 - 1) L) = true := by
  rw [is_valid_move, List.all_eq_true]
  intro p hp
  rw [mem_hRun] at hp
  simp only [Bool.or_eq_true, decide_eq_true_eq]
  by_cases hpc : p.2 = c0 - 1
  · left; rw [hp.1, hpc]; exact hdot
  · right; rw [mem_hRun]; exact ⟨hp.1, by omega, by omega⟩

lemma valid_move_hRun_right {b : Board} {r0 c0 : Int} {L : Nat}
    (hdot : getCell b r0 (c0 + L) = '.') :
    is_valid_move b (hRun r0 c0 L) (hRun r0 (c0 + 1) L) = true := by
  rw [is_valid_move, List.all_eq_true]
  intro p hp
  rw [mem_hRun] at hp
  simp only [Bool.or_eq_true, decide_eq_true_eq]
  by_cases hpc : p.2 = c0 + L
  · left; rw [hp.1, hpc]; exact hdot
  · right; rw [mem_hRun]; exact ⟨hp.1, by omega, by omega⟩

lemma valid_move_vRun_up {b : Board} {r0 c0 : Int} {L : Nat}
    (hdot : getCell b (r0 - 1) c0 = '.') :
    is_valid_move b (vRun r0 c0 L) (vRun (r0 - 1) c0 L) = true := by
  rw [is_valid_move, List.all_eq_true]
  intro p hp
  rw [mem_vRun] at hp
  simp only [Bool.or_eq_true, decide_eq_true_eq]
  by_cases hpr : p.1 = r0 - 1
  · left; rw [hp.1, hpr]; exact hdot
  · right; rw [mem_vRun]; exact ⟨hp.1, by omega, by omega⟩

lemma valid_move_vRun_down {b : Board} {r0 c0 : Int} {L : Nat}
    (hdot : getCell b (r0 + L) c0 = '.') :
    is_valid_move b (vRun r0 c0 L) (vRun (r0 + 1) c0 L) = true := by
  rw [is_valid_move, List.all_eq_true]
  intro p hp
  rw [mem_vRun] at hp
  simp only [Bool.or_eq_true, decide_eq_true_eq]
  by_cases hpr : p.1 = r0 + L
  · left; rw [hp.1, hpr]; exact hdot
  · right; rw [mem_vRun]; exact ⟨hp.1, by omega, by omega⟩

/-- The translated per-vehicle successor block coincides with the spec's
description, for any well-formed vehicle. -/
lemma vehicleMoves_eq_spec {g : RushHourGame} {s : PyState}
    {kv : Char × VehicleInfo} (hv : WFVehicle g.size kv.2) :
    vehicleMoves g s kv =
      (specDirs kv.2.orientation).filterMap fun d =>
        if specLegal g.size s.board kv.2 d then
          some (create_new_state s kv.1 (shiftPs kv.2.positions d),
            kv.2.positions.length * g.unit_cost)
        else none := by
  rcases wfVehicle_elim hv with ⟨r0, c0, L, hL, hr0, hc0, hlen, hcase⟩
  rcases hcase with ⟨ho, hps, hrN, hcL⟩ | ⟨ho, hps, hcN, hrL⟩
  · -- horizontal vehicle
    simp only [vehicleMoves, specDirs, ho, if_true]
    rw [filterMap_pair, toList_ite, toList_ite]
    simp only [specLegal, enteringCell, shiftPs, hps, hlen,
      headD_hRun hL, getLastD_hRun hL, length_hRun, shift_hRun_left,
      shift_hRun_right]
    congr 1
    · -- left move block
      by_cases hg : 0 ≤ c0 - 1 ∧ getCell s.board r0 (c0 - 1) = '.'
      · rw [if_pos hg, if_pos (valid_move_hRun_left hg.2),
          if_pos ?_]
        exact ⟨⟨hr0, hrN, hg.1, by omega⟩, Or.inl hg.2⟩
      · rw [if_neg hg, if_neg ?_]
        rintro ⟨hin, hdot | hmem⟩
        · exact hg ⟨hin.2.2.1, hdot⟩
        · rw [mem_hRun] at hmem
          omega
    · -- right move block
      by_cases hg : c0 + (L : Int) - 1 + 1 < (g.size : Int) ∧
          getCell s.board r0 (c0 + (L : Int) - 1 + 1) = '.'
      · rw [if_pos hg,
          if_pos (by
            have : c0 + (L : Int) - 1 + 1 = c0 + L := by omega
            rw [this] at hg
            exact valid_move_hRun_right hg.2),
          if_pos ?_]
        exact ⟨⟨hr0, hrN, by omega, hg.1⟩, Or.inl hg.2⟩
      · rw [if_neg hg, if_neg ?_]
        rintro ⟨hin, hdot | hmem⟩
        · exact hg ⟨hin.2.2.2, hdot⟩
        · rw [mem_hRun] at hmem
          omega
  · -- vertical vehicle
    simp only [vehicleMoves, specDirs, ho, if_true]
    rw [if_neg (show ¬("vertical" : String) = "horizontal" by decide),
      if_neg (show ¬("vertical" : String) = "horizontal" by decide)]
    rw [filterMap_pair, toList_ite, toList_ite]
    simp only [specLegal, enteringCell, shiftPs, hps, hlen,
      headD_vRun hL, getLastD_vRun hL, length_vRun, shift_vRun_up,
      shift_vRun_down]
    congr 1
    · -- up move block
      by_cases hg : 0 ≤ r0 - 1 ∧ getCell s.board (r0 - 1) c0 = '.'
      · rw [if_pos hg, if_pos (valid_move_vRun_up hg.2), if_pos ?_]
        exact ⟨⟨hg.1, by omega, hc0, hcN⟩, Or.inl hg.2⟩
      · rw [if_neg hg, if_neg ?_]
        rintro ⟨hin, hdot | hmem⟩
        · exact hg ⟨hin.1, hdot⟩
        · rw [mem_vRun] at hmem
          omega
    · -- down move block
      by_cases hg : r0 + (L : Int) - 1 + 1 < (g.size : Int) ∧
          getCell s.board (r0 + (L : Int) - 1 + 1) c0 = '.'
      · rw [if_pos hg,
          if_pos (by
            have : r0 + (L : Int) - 1 + 1 = r0 + L := by omega
            rw [this] at hg
            exact valid_move_vRun_down hg.2),
          if_pos ?_]
        exact ⟨⟨by omega, hg.1, hc0, hcN⟩, Or.inl hg.2⟩
      · rw [if_neg hg, if_neg ?_]
        rintro ⟨hin, hdot | hmem⟩
        · exact hg ⟨hin.2.1, hdot⟩
        · rw [mem_vRun] at hmem
          omega

lemma flatMap_congr {α β : Type} {l : List α} {f g' : α → List β}
    (h : ∀ x ∈ l, f x = g' x) : l.flatMap f = l.flatMap g' := by
  induction l with
  | nil => rfl
  | cons a l ih =>
    rw [List.flatMap_cons, List.flatMap_cons, h a (List.mem_cons_self a l),
      ih (fun x hx => h x (List.mem_cons_of_mem a hx))]

lemma get_successors_spec_eq (g : RushHourGame) (s : PyState)
    (hwf : WFState g.size s) : get_successors g s = specSuccessors g s := by
  unfold get_successors specSuccessors
  exact flatMap_congr fun kv hkv => vehicleMoves_eq_spec (hwf.2.2.1 kv hkv).2

/-- **C3.** For every well-formed state, `get_successors` produces exactly the
successors the spec describes: for each vehicle one candidate per direction
along its orientation, present iff the single cell beyond the head (or tail)
is within bounds and empty-or-self-occupied, and nothing else. -/
theorem get_successors_eq_spec (g : RushHourGame) (s : PyState)
    (hwf : WFState g.size s) : get_successors g s = specSuccessors g s :=
  get_successors_spec_eq g s hwf

/-- A small consistent demonstration game: `'X'` horizontal at
`(1,0)-(1,1)`, `'B'` vertical at `(0,2)-(1,2)` on a 3×3 grid. -/
def demoBoard : Board :=
  [['.', '.', 'B'], ['X', 'X', 'B'], ['.', '.', '.']]

/-- Vehicle table of the demonstration game. -/
def demoVehicles : List (Char × VehicleInfo) :=
  [('X', ⟨[(1, 0), (1, 1)], "horizontal"⟩), ('B', ⟨[(0, 2), (1, 2)], "vertical"⟩)]

/-- The demonstration game object. -/
def demoGame : RushHourGame := RushHourGame.init demoBoard demoVehicles 1

theorem get_successors_eq_spec_witness :
    WFState demoGame.size (initState demoGame) ∧
      get_successors demoGame (initState demoGame) =
        specSuccessors demoGame (initState demoGame) :=
  ⟨by decide, get_successors_eq_spec demoGame (initState demoGame) (by decide)⟩

lemma disjV_symm {a b : VehicleInfo} (h : DisjV a b) : DisjV b a := by
  intro p hp hq
  exact h p hq hp

lemma eq_of_mem_same_key {vs : List (Char × VehicleInfo)}
    (hnd : (vs.map Prod.fst).Nodup) {a b : Char × VehicleInfo}
    (ha : a ∈ vs) (hb : b ∈ vs) (hk : a.1 = b.1) : a = b := by
  induction vs with
  | nil => cases ha
  | cons e vs ih =>
    rw [List.map_cons, List.nodup_cons] at hnd
    rcases List.mem_cons.mp ha with rfl | ha'
    · rcases List.mem_cons.mp hb with rfl | hb'
      · rfl
      · exact absurd (hk ▸ List.mem_map_of_mem Prod.fst hb') hnd.1
    · rcases List.mem_cons.mp hb with rfl | hb'
      · exact absurd (hk ▸ List.mem_map_of_mem Prod.fst ha') hnd.1
      · exact ih hnd.2 ha' hb'

lemma disj_of_mem_ne {vs : List (Char × VehicleInfo)}
    (hpw : vs.Pairwise fun a b => DisjV a.2 b.2) {a b : Char × VehicleInfo}
    (ha : a ∈ vs) (hb : b ∈ vs) (hne : a ≠ b) : DisjV a.2 b.2 := by
  induction vs with
  | nil => cases ha
  | cons e vs ih =>
    rw [List.pairwise_cons] at hpw
    rcases List.mem_cons.mp ha with rfl | ha'
    · rcases List.mem_cons.mp hb with rfl | hb'
      · exact absurd rfl hne
      · exact hpw.1 b hb'
    · rcases List.mem_cons.mp hb with rfl | hb'
      · exact disjV_symm (hpw.1 a ha')
      · exact ih hpw.2 ha' hb'

lemma lookupVeh_eq {vs : List (Char × VehicleInfo)}
    (hnd : (vs.map Prod.fst).Nodup) {kv : Char × VehicleInfo} (hkv : kv ∈ vs) :
    lookupVeh vs kv.1 = kv.2 := by
  induction vs with
  | nil => cases hkv
  | cons e vs ih =>
    rw [List.map_cons, List.nodup_cons] at hnd
    rcases List.mem_cons.mp hkv with rfl | hkv'
    · unfold lookupVeh
      rw [List.find?_cons_of_pos _ (by simp)]
    · have hne : e.1 ≠ kv.1 := by
        intro he
        exact hnd.1 (he ▸ List.mem_map_of_mem Prod.fst hkv')
      unfold lookupVeh
      rw [List.find?_cons_of_neg _ (by simpa using hne)]
      exact ih hnd.2 hkv'

lemma updateVeh_map_fst (vs : List (Char × VehicleInfo)) (v : Char)
    (ps : List (Int × Int)) :
    (updateVeh vs v ps).map Prod.fst = vs.map Prod.fst := by
  unfold updateVeh
  rw [List.map_map]
  refine List.map_congr_left fun kv _ => ?_
  by_cases h : kv.1 = v <;> simp [h]

lemma mem_updateVeh_self {vs : List (Char × VehicleInfo)}
    {kv : Char × VehicleInfo} (hkv : kv ∈ vs) (ps : List (Int × Int)) :
    (kv.1, (⟨ps, kv.2.orientation⟩ : VehicleInfo)) ∈ updateVeh vs kv.1 ps := by
  unfold updateVeh
  have := List.mem_map_of_mem
    (fun e : Char × VehicleInfo =>
      if e.1 = kv.1 then (e.1, (⟨ps, e.2.orientation⟩ : VehicleInfo)) else e) hkv
  simpa using this

lemma ownerChar_map_congr {vs : List (Char × VehicleInfo)}
    {f : Char × VehicleInfo → Char × VehicleInfo} {r c : Int}
    (hf : ∀ e ∈ vs, (f e).1 = e.1 ∧ ((r, c) ∈ (f e).2.positions ↔ (r, c) ∈ e.2.positions)) :
    ownerChar (vs.map f) r c = ownerChar vs r c := by
  induction vs with
  | nil => rfl
  | cons e vs ih =>
    have he := hf e (List.mem_cons_self e vs)
    unfold ownerChar
    rw [List.map_cons]
    by_cases hcov : (r, c) ∈ e.2.positions
    · rw [List.find?_cons_of_pos _ (by simpa using he.2.mpr hcov),
        List.find?_cons_of_pos _ (by simpa using hcov)]
      exact he.1
    · rw [List.find?_cons_of_neg _ (by simpa using fun h => hcov (he.2.mp h)),
        List.find?_cons_of_neg _ (by simpa using hcov)]
      exact ih fun e' he' => hf e' (List.mem_cons_of_mem e he')

lemma board_eq_of_getCell {N : Nat} {b1 b2 : Board} (h1 : Shape N b1)
    (h2 : Shape N b2)
    (h : ∀ i j : Nat, i < N → j < N →
      getCell b1 (i : Int) (j : Int) = getCell b2 (i : Int) (j : Int)) :
    b1 = b2 := by
  have hrow : ∀ (b : Board), Shape N b → ∀ i : Nat, i < N →
      (b.getD i []).length = N := by
    intro b hb i hi
    refine hb.2 _ ?_
    rw [List.getD_eq_getElem?_getD, List.getElem?_eq_getElem (by rw [hb.1]; omega)]
    exact List.getElem_mem _
  have hcell : ∀ (b : Board), Shape N b → ∀ i j : Nat, i < N → j < N →
      (b.getD i []).getD j '#' = getCell b (i : Int) (j : Int) := by
    intro b hb i j hi hj
    unfold getCell
    rw [if_pos ⟨by omega, by omega⟩, Int.toNat_natCast, Int.toNat_natCast]
  have hsome : ∀ (b : Board) (i : Nat), i < b.length →
      b[i]? = some (b.getD i []) := by
    intro b i hib
    rw [List.getD_eq_getElem?_getD, List.getElem?_eq_getElem hib]
    rfl
  have hsomerow : ∀ (row : List Char) (j : Nat), j < row.length →
      row[j]? = some (row.getD j '#') := by
    intro row j hjr
    rw [List.getD_eq_getElem?_getD, List.getElem?_eq_getElem hjr]
    rfl
  apply List.ext_getElem?
  intro i
  by_cases hi : i < N
  · rw [hsome b1 i (by rw [h1.1]; omega), hsome b2 i (by rw [h2.1]; omega)]
    congr 1
    apply List.ext_getElem?
    intro j
    by_cases hj : j < N
    · rw [hsomerow (b1.getD i []) j (by rw [hrow b1 h1 i hi]; omega),
        hsomerow (b2.getD i []) j (by rw [hrow b2 h2 i hi]; omega)]
      rw [hcell b1 h1 i j hi hj, hcell b2 h2 i j hi hj, h i j hi hj]
    · rw [List.getElem?_eq_none (by rw [hrow b1 h1 i hi]; omega),
        List.getElem?_eq_none (by rw [hrow b2 h2 i hi]; omega)]
  · rw [List.getElem?_eq_none (by rw [h1.1]; omega),
      List.getElem?_eq_none (by rw [h2.1]; omega)]

/-- Core preservation argument: moving vehicle `kv` to new cells `nps`, all of
which are old cells of `kv` except the single entered cell `ent`, which is
in-bounds and empty, keeps the state well-formed. -/
lemma create_preserves_WF_core {g : RushHourGame} {s : PyState}
    (hwf : WFState g.size s) {kv : Char × VehicleInfo} (hkv : kv ∈ s.vehicles)
    {nps : List (Int × Int)} {ent : Int × Int}
    (hsub : ∀ p ∈ nps, p = ent ∨ p ∈ kv.2.positions)
    (hent : InB g.size ent)
    (hdot : getCell s.board ent.1 ent.2 = '.')
    (hwfv : WFVehicle g.size ⟨nps, kv.2.orientation⟩) :
    WFState g.size (create_new_state s kv.1 nps) := by
  obtain ⟨hbr, hnd, hids, hpw⟩ := hwf
  have hwf' : WFState g.size s := ⟨hbr, hnd, hids, hpw⟩
  have hshape : Shape g.size s.board := hbr ▸ shape_render
  have hnocover : ∀ e ∈ s.vehicles, ent ∉ e.2.positions := fun e he =>
    not_covered_of_getCell_dot hwf' hent hdot e he
  have hlkp : lookupVeh s.vehicles kv.1 = kv.2 := lookupVeh_eq hnd hkv
  have hposlen : 0 < kv.2.positions.length := (hids kv hkv).2.1
  -- the updated vehicle table is pairwise disjoint
  have hpw' : (updateVeh s.vehicles kv.1 nps).Pairwise fun a b => DisjV a.2 b.2 := by
    unfold updateVeh
    rw [List.pairwise_map]
    refine List.Pairwise.imp_of_mem ?_ hpw
    intro a b ha hb hab
    show DisjV
      (if a.1 = kv.1 then (a.1, (⟨nps, a.2.orientation⟩ : VehicleInfo)) else a).2
      (if b.1 = kv.1 then (b.1, (⟨nps, b.2.orientation⟩ : VehicleInfo)) else b).2
    by_cases hav : a.1 = kv.1 <;> by_cases hbv : b.1 = kv.1
    · exfalso
      have hae : a = kv := eq_of_mem_same_key hnd ha hkv hav
      have hbe : b = kv := eq_of_mem_same_key hnd hb hkv hbv
      obtain ⟨p, hp⟩ := List.exists_mem_of_length_pos hposlen
      rw [hae, hbe] at hab
      exact hab p hp hp
    · rw [if_pos hav, if_neg hbv]
      intro p hp hq
      rcases hsub p hp with rfl | hold
      · exact hnocover b hb hq
      · have hae : a = kv := eq_of_mem_same_key hnd ha hkv hav
        rw [hae] at hab
        exact hab p hold hq
    · rw [if_neg hav, if_pos hbv]
      intro p hp hq
      rcases hsub p hq with rfl | hold
      · exact hnocover a ha hp
      · have hbe : b = kv := eq_of_mem_same_key hnd hb hkv hbv
        rw [hbe] at hab
        exact hab p hp hold
    · rw [if_neg hav, if_neg hbv]
      exact hab
  have hmemup : (kv.1, (⟨nps, kv.2.orientation⟩ : VehicleInfo)) ∈
      updateVeh s.vehicles kv.1 nps := mem_updateVeh_self hkv nps
  refine ⟨?_, ?_, ?_, hpw'⟩
  · -- the new board is the rendering of the new vehicle table
    show (nps.foldl (fun acc p => setCell acc p.1 p.2 kv.1)
        (((lookupVeh s.vehicles kv.1).positions).foldl
          (fun acc p => setCell acc p.1 p.2 '.') s.board)) =
      render g.size (updateVeh s.vehicles kv.1 nps)
    rw [hlkp]
    refine board_eq_of_getCell
      (shape_foldl_setCell (shape_foldl_setCell hshape _ _) _ _) shape_render ?_
    intro i j hi hj
    have hbnd : 0 ≤ (i : Int) ∧ (i : Int) < (g.size : Int) ∧
        0 ≤ (j : Int) ∧ (j : Int) < (g.size : Int) :=
      ⟨by omega, by omega, by omega, by omega⟩
    rw [getCell_render, if_pos hbnd,
      getCell_clear_write hshape kv.2.positions nps kv.1 hbnd]
    by_cases hnew : ((i : Int), (j : Int)) ∈ nps
    · rw [if_pos hnew]
      exact (ownerChar_eq_of_mem hpw' hmemup hnew).symm
    · rw [if_neg hnew]
      by_cases hold : ((i : Int), (j : Int)) ∈ kv.2.positions
      · rw [if_pos hold]
        refine (ownerChar_eq_dot ?_).symm
        intro e' he'
        unfold updateVeh at he'
        rw [List.mem_map] at he'
        obtain ⟨e, he, rfl⟩ := he'
        by_cases hev : e.1 = kv.1
        · rw [if_pos hev]
          exact hnew
        · rw [if_neg hev]
          have hne : e ≠ kv := fun h => hev (by rw [h])
          exact disj_of_mem_ne hpw hkv he (fun h => hne h.symm) _ hold
      · rw [if_neg hold, hbr, getCell_render, if_pos hbnd]
        refine (ownerChar_map_congr ?_).symm
        intro e he
        by_cases hev : e.1 = kv.1
        · rw [if_pos hev]
          have hekv : e = kv := eq_of_mem_same_key hnd he hkv hev
          refine ⟨rfl, ?_⟩
          rw [hekv]
          exact iff_of_false hnew hold
        · rw [if_neg hev]
          exact ⟨rfl, Iff.rfl⟩
  · show ((updateVeh s.vehicles kv.1 nps).map Prod.fst).Nodup
    rw [updateVeh_map_fst]
    exact hnd
  · intro e' he'
    replace he' : e' ∈ updateVeh s.vehicles kv.1 nps := he'
    unfold updateVeh at he'
    rw [List.mem_map] at he'
    obtain ⟨e, he, rfl⟩ := he'
    by_cases hev : e.1 = kv.1
    · rw [if_pos hev]
      have hekv : e = kv := eq_of_mem_same_key hnd he hkv hev
      refine ⟨(hids e he).1, ?_⟩
      rw [hekv]
      exact hwfv
    · rw [if_neg hev]
      exact hids e he

lemma wfVehicle_hRun {N : Nat} {r0 c0 : Int} {L : Nat} {o : String}
    (ho : o = "horizontal") (hL : 0 < L) (h1 : 0 ≤ r0) (h2 : 0 ≤ c0)
    (h3 : r0 < N) (h4 : c0 + L ≤ N) : WFVehicle N ⟨hRun r0 c0 L, o⟩ := by
  unfold WFVehicle
  simp only [headD_hRun hL, length_hRun]
  refine ⟨hL, h1, h2, Or.inl ⟨ho, ?_, h3, h4⟩⟩
  simp

lemma wfVehicle_vRun {N : Nat} {r0 c0 : Int} {L : Nat} {o : String}
    (ho : o = "vertical") (hL : 0 < L) (h1 : 0 ≤ r0) (h2 : 0 ≤ c0)
    (h3 : c0 < N) (h4 : r0 + L ≤ N) : WFVehicle N ⟨vRun r0 c0 L, o⟩ := by
  unfold WFVehicle
  simp only [headD_vRun hL, length_vRun]
  refine ⟨hL, h1, h2, Or.inr ⟨ho, ?_, h3, h4⟩⟩
  simp

lemma inB_pair {N : Nat} {a b : Int} (h : InB N (a, b)) :
    0 ≤ a ∧ a < N ∧ 0 ≤ b ∧ b < N := h

/-- A legal unit move of a vehicle of a well-formed state yields a well-formed
state. -/
lemma create_preserves_WF {g : RushHourGame} {s : PyState}
    (hwf : WFState g.size s) {kv : Char × VehicleInfo} (hkv : kv ∈ s.vehicles)
    {d : Dir} (hd : d ∈ specDirs kv.2.orientation)
    (hleg : specLegal g.size s.board kv.2 d) :
    WFState g.size (create_new_state s kv.1 (shiftPs kv.2.positions d)) := by
  have hv : WFVehicle g.size kv.2 := (hwf.2.2.1 kv hkv).2
  rcases wfVehicle_elim hv with ⟨r0, c0, L, hL, hr0, hc0, hlen, hcase⟩
  obtain ⟨hin, hside⟩ := hleg
  rcases hcase with ⟨ho, hps, hrN, hcL⟩ | ⟨ho, hps, hcN, hrL⟩
  · rw [specDirs, if_pos ho] at hd
    rw [hps] at hin hside ⊢
    rcases List.mem_cons.mp hd with rfl | hd'
    · -- move left
      have hent : enteringCell (hRun r0 c0 L) Dir.left = (r0, c0 - 1) := by
        simp only [enteringCell, headD_hRun hL]
      rw [hent] at hin hside
      obtain ⟨hq1, hq2, hq3, hq4⟩ := inB_pair hin
      have hnm : ((r0, c0 - 1) : Int × Int) ∉ hRun r0 c0 L := by
        rw [mem_hRun]
        simp only
        omega
      have hdot : getCell s.board r0 (c0 - 1) = '.' := by
        rcases hside with h | h
        · exact h
        · exact absurd h hnm
      have hshift : shiftPs (hRun r0 c0 L) Dir.left = hRun r0 (c0 - 1) L := by
        rw [shiftPs, shift_hRun_left]
      rw [hshift]
      refine @create_preserves_WF_core g s hwf kv hkv (hRun r0 (c0 - 1) L)
        (r0, c0 - 1) ?_ hin hdot ?_
      · intro p hp
        rw [mem_hRun] at hp
        by_cases h : p.2 = c0 - 1
        · exact Or.inl (Prod.ext_iff.mpr ⟨hp.1, h⟩)
        · exact Or.inr (by rw [hps, mem_hRun]; exact ⟨hp.1, by omega, by omega⟩)
      · exact wfVehicle_hRun ho hL hr0 hq3 hrN (by omega)
    · have hd2 : d = Dir.right := by
        rcases List.mem_cons.mp hd' with rfl | h
        · rfl
        · cases h
      subst hd2
      -- move right
      have hent : enteringCell (hRun r0 c0 L) Dir.right =
          (r0, c0 + (L : Int) - 1 + 1) := by
        simp only [enteringCell, getLastD_hRun hL]
      rw [hent] at hin hside
      obtain ⟨hq1, hq2, hq3, hq4⟩ := inB_pair hin
      have hnm : ((r0, c0 + (L : Int) - 1 + 1) : Int × Int) ∉ hRun r0 c0 L := by
        rw [mem_hRun]
        simp only
        omega
      have hdot : getCell s.board r0 (c0 + (L : Int) - 1 + 1) = '.' := by
        rcases hside with h | h
        · exact h
        · exact absurd h hnm
      have hshift : shiftPs (hRun r0 c0 L) Dir.right = hRun r0 (c0 + 1) L := by
        rw [shiftPs, shift_hRun_right]
      rw [hshift]
      refine @create_preserves_WF_core g s hwf kv hkv (hRun r0 (c0 + 1) L)
        (r0, c0 + (L : Int) - 1 + 1) ?_ hin hdot ?_
      · intro p hp
        rw [mem_hRun] at hp
        by_cases h : p.2 = c0 + L
        · exact Or.inl (Prod.ext_iff.mpr ⟨hp.1, by omega⟩)
        · exact Or.inr (by rw [hps, mem_hRun]; exact ⟨hp.1, by omega, by omega⟩)
      · exact wfVehicle_hRun ho hL hr0 (by omega) hrN (by omega)
  · rw [specDirs, if_neg (by rw [ho]; decide), if_pos ho] at hd
    rw [hps] at hin hside ⊢
    rcases List.mem_cons.mp hd with rfl | hd'
    · -- move up
      have hent : enteringCell (vRun r0 c0 L) Dir.up = (r0 - 1, c0) := by
        simp only [enteringCell, headD_vRun hL]
      rw [hent] at hin hside
      obtain ⟨hq1, hq2, hq3, hq4⟩ := inB_pair hin
      have hnm : ((r0 - 1, c0) : Int × Int) ∉ vRun r0 c0 L := by
        rw [mem_vRun]
        simp only
        omega
      have hdot : getCell s.board (r0 - 1) c0 = '.' := by
        rcases hside with h | h
        · exact h
        · exact absurd h hnm
      have hshift : shiftPs (vRun r0 c0 L) Dir.up = vRun (r0 - 1) c0 L := by
        rw [shiftPs, shift_vRun_up]
      rw [hshift]
      refine @create_preserves_WF_core g s hwf kv hkv (vRun (r0 - 1) c0 L)
        (r0 - 1, c0) ?_ hin hdot ?_
      · intro p hp
        rw [mem_vRun] at hp
        by_cases h : p.1 = r0 - 1
        · exact Or.inl (Prod.ext_iff.mpr ⟨h, hp.1⟩)
        · exact Or.inr (by rw [hps, mem_vRun]; exact ⟨hp.1, by omega, by omega⟩)
      · exact wfVehicle_vRun ho hL hq1 hc0 hcN (by omega)
    · have hd2 : d = Dir.down := by
        rcases List.mem_cons.mp hd' with rfl | h
        · rfl
        · cases h
      subst hd2
      -- move down
      have hent : enteringCell (vRun r0 c0 L) Dir.down =
          (r0 + (L : Int) - 1 + 1, c0) := by
        simp only [enteringCell, getLastD_vRun hL]
      rw [hent] at hin hside
      obtain ⟨hq1, hq2, hq3, hq4⟩ := inB_pair hin
      have hnm : ((r0 + (L : Int) - 1 + 1, c0) : Int × Int) ∉ vRun r0 c0 L := by
        rw [mem_vRun]
        simp only
        omega
      have hdot : getCell s.board (r0 + (L : Int) - 1 + 1) c0 = '.' := by
        rcases hside with h | h
        · exact h
        · exact absurd h hnm
      have hshift : shiftPs (vRun r0 c0 L) Dir.down = vRun (r0 + 1) c0 L := by
        rw [shiftPs, shift_vRun_down]
      rw [hshift]
      refine @create_preserves_WF_core g s hwf kv hkv (vRun (r0 + 1) c0 L)
        (r0 + (L : Int) - 1 + 1, c0) ?_ hin hdot ?_
      · intro p hp
        rw [mem_vRun] at hp
        by_cases h : p.1 = r0 + L
        · exact Or.inl (Prod.ext_iff.mpr ⟨by omega, hp.1⟩)
        · exact Or.inr (by rw [hps, mem_vRun]; exact ⟨hp.1, by omega, by omega⟩)
      · exact wfVehicle_vRun ho hL (by omega) hc0 hcN (by omega)

/-- Successor states of a well-formed state are well-formed. -/
lemma succ_preserves_WF (g : RushHourGame) (s : PyState)
    (hwf : WFState g.size s) :
    ∀ pr ∈ get_successors g s, WFState g.size pr.1 := by
  intro pr hpr
  rw [get_successors_spec_eq g s hwf] at hpr
  unfold specSuccessors at hpr
  rw [List.mem_flatMap] at hpr
  obtain ⟨kv, hkv, hpr⟩ := hpr
  rw [List.mem_filterMap] at hpr
  obtain ⟨d, hd, hopt⟩ := hpr
  by_cases hleg : specLegal g.size s.board kv.2 d
  · rw [if_pos hleg] at hopt
    injection hopt with hopt
    rw [← hopt]
    exact create_preserves_WF hwf hkv hd hleg
  · rw [if_neg hleg] at hopt
    cases hopt

/-- **C4.** Every successor of a state satisfying the board/vehicle consistency
invariant satisfies it too: the board is exactly the rendering of the vehicle
table (so every vehicle's cells carry its identifier), identifiers stay
distinct, every vehicle — the moved one included — is a contiguous in-bounds
run along its orientation, and no two vehicles share a cell. -/
theorem get_successors_preserves_WF (g : RushHourGame) (s : PyState)
    (hwf : WFState g.size s) :
    ∀ pr ∈ get_successors g s, WFState g.size pr.1 :=
  succ_preserves_WF g s hwf

theorem get_successors_preserves_WF_witness :
    WFState demoGame.size (initState demoGame) ∧
      ∀ pr ∈ get_successors demoGame (initState demoGame),
        WFState demoGame.size pr.1 :=
  ⟨by decide, get_successors_preserves_WF demoGame (initState demoGame) (by decide)⟩

lemma wfVehicle_mem_bounds {N : Nat} {info : VehicleInfo}
    (hv : WFVehicle N info) : ∀ p ∈ info.positions, InB N p := by
  rcases wfVehicle_elim hv with ⟨r0, c0, L, hL, hr0, hc0, hlen, hcase⟩
  intro p hp
  rcases hcase with ⟨ho, hps, hrN, hcL⟩ | ⟨ho, hps, hcN, hrL⟩
  · rw [hps, mem_hRun] at hp
    exact ⟨by omega, by omega, by omega, by omega⟩
  · rw [hps, mem_vRun] at hp
    exact ⟨by omega, by omega, by omega, by omega⟩

lemma lookupVeh_updateVeh_ne (vs : List (Char × VehicleInfo)) (v u : Char)
    (ps : List (Int × Int)) (hne : u ≠ v) :
    lookupVeh (updateVeh vs v ps) u = lookupVeh vs u := by
  induction vs with
  | nil => rfl
  | cons e vs ih =>
    unfold updateVeh at ih ⊢
    rw [List.map_cons]
    by_cases he : e.1 = v
    · rw [if_pos he]
      unfold lookupVeh
      rw [List.find?_cons_of_neg _ (by simp only [decide_eq_true_eq]; intro h; exact hne (by rw [← h, he])),
        List.find?_cons_of_neg _ (by simp only [decide_eq_true_eq]; intro h; exact hne (by rw [← h, he]))]
      exact ih
    · rw [if_neg he]
      by_cases hu : e.1 = u
      · unfold lookupVeh
        rw [List.find?_cons_of_pos _ (by simpa using hu),
          List.find?_cons_of_pos _ (by simpa using hu)]
      · unfold lookupVeh
        rw [List.find?_cons_of_neg _ (by simpa using hu),
          List.find?_cons_of_neg _ (by simpa using hu)]
        exact ih

/-- The frame/effect postcondition of `create_new_state` for a legal unit move
of vehicle `kv` in direction `d` from state `s`: in the child, the vehicle's
vacated old cells are empty, its identifier sits exactly on its new cells, all
board cells outside the old and new cells are unchanged, the moved vehicle's
table entry now carries the new positions (same orientation), every other
vehicle's table entry is unchanged, and the set and order of vehicle
identifiers is unchanged. The parent state itself is untouched (value
semantics of the model, matching Python's deepcopy). -/
def MoveFrame (g : RushHourGame) (s : PyState) (kv : Char × VehicleInfo)
    (d : Dir) : Prop :=
  let nps := shiftPs kv.2.positions d
  let t := create_new_state s kv.1 nps
  (∀ p ∈ kv.2.positions, p ∉ nps → getCell t.board p.1 p.2 = '.') ∧
  (∀ p ∈ nps, getCell t.board p.1 p.2 = kv.1) ∧
  (∀ i j : Nat, i < g.size → j < g.size →
    ((i : Int), (j : Int)) ∉ kv.2.positions → ((i : Int), (j : Int)) ∉ nps →
    getCell t.board (i : Int) (j : Int) = getCell s.board (i : Int) (j : Int)) ∧
  lookupVeh t.vehicles kv.1 = ⟨nps, kv.2.orientation⟩ ∧
  (∀ u : Char, u ≠ kv.1 → lookupVeh t.vehicles u = lookupVeh s.vehicles u) ∧
  t.vehicles.map Prod.fst = s.vehicles.map Prod.fst

/-- **C5.** For every well-formed state and every legal unit move of one of
its vehicles, `create_new_state` clears the moved vehicle's old cells, writes
its identifier into exactly its new cells, leaves every other cell and every
other vehicle's table entry unchanged, and never mutates the parent state
(the model is functional, as is the Python original through `deepcopy`). -/
theorem create_new_state_frame (g : RushHourGame) (s : PyState)
    (hwf : WFState g.size s) (kv : Char × VehicleInfo) (hkv : kv ∈ s.vehicles)
    (d : Dir) (hd : d ∈ specDirs kv.2.orientation)
    (hleg : specLegal g.size s.board kv.2 d) : MoveFrame g s kv d := by
  obtain ⟨hbr, hnd, hids, hpw⟩ := hwf
  have hwf' : WFState g.size s := ⟨hbr, hnd, hids, hpw⟩
  have hwft := create_preserves_WF hwf' hkv hd hleg
  have hvold : WFVehicle g.size kv.2 := (hids kv hkv).2
  refine ⟨?_, ?_, ?_, ?_, ?_, ?_⟩
  · -- vacated cells become empty
    intro p hpold hpnew
    have hbnd := wfVehicle_mem_bounds hvold p hpold
    have hbnd2 : 0 ≤ p.1 ∧ p.1 < (g.size : Int) ∧ 0 ≤ p.2 ∧ p.2 < (g.size : Int) := hbnd
    rw [hwft.1, getCell_render, if_pos hbnd2]
    refine ownerChar_eq_dot ?_
    intro e' he'
    replace he' : e' ∈ updateVeh s.vehicles kv.1 (shiftPs kv.2.positions d) := he'
    unfold updateVeh at he'
    rw [List.mem_map] at he'
    obtain ⟨e, he, rfl⟩ := he'
    by_cases hev : e.1 = kv.1
    · rw [if_pos hev]
      simpa using hpnew
    · rw [if_neg hev]
      have hne : e ≠ kv := fun h => hev (by rw [h])
      have := disj_of_mem_ne hpw hkv he (fun h => hne h.symm) p hpold
      simpa using this
  · -- the identifier sits on every new cell
    intro p hpnew
    have hment : (kv.1, (⟨shiftPs kv.2.positions d, kv.2.orientation⟩ : VehicleInfo)) ∈
        (create_new_state s kv.1 (shiftPs kv.2.positions d)).vehicles :=
      mem_updateVeh_self hkv _
    have hbnd := wfVehicle_mem_bounds (hwft.2.2.1 _ hment).2 p hpnew
    have hbnd2 : 0 ≤ p.1 ∧ p.1 < (g.size : Int) ∧ 0 ≤ p.2 ∧ p.2 < (g.size : Int) := hbnd
    rw [hwft.1, getCell_render, if_pos hbnd2]
    exact ownerChar_eq_of_mem hwft.2.2.2 hment hpnew
  · -- all other cells unchanged
    intro i j hi hj hold hnew
    have hbnd : 0 ≤ (i : Int) ∧ (i : Int) < (g.size : Int) ∧
        0 ≤ (j : Int) ∧ (j : Int) < (g.size : Int) :=
      ⟨by omega, by omega, by omega, by omega⟩
    rw [hwft.1, hbr, getCell_render, getCell_render, if_pos hbnd, if_pos hbnd]
    refine ownerChar_map_congr ?_
    intro e he
    by_cases hev : e.1 = kv.1
    · rw [if_pos hev]
      have hekv : e = kv := eq_of_mem_same_key hnd he hkv hev
      refine ⟨rfl, ?_⟩
      rw [hekv]
      exact iff_of_false hnew hold
    · rw [if_neg hev]
      exact ⟨rfl, Iff.rfl⟩
  · -- the moved vehicle's entry carries the new positions
    have hment : (kv.1, (⟨shiftPs kv.2.positions d, kv.2.orientation⟩ : VehicleInfo)) ∈
        (create_new_state s kv.1 (shiftPs kv.2.positions d)).vehicles :=
      mem_updateVeh_self hkv _
    have hnd' : ((create_new_state s kv.1 (shiftPs kv.2.positions d)).vehicles.map
        Prod.fst).Nodup := hwft.2.1
    exact lookupVeh_eq hnd' hment
  · -- every other vehicle's entry is unchanged
    intro u hu
    exact lookupVeh_updateVeh_ne s.vehicles kv.1 u _ hu
  · show (updateVeh s.vehicles kv.1 (shiftPs kv.2.positions d)).map Prod.fst =
      s.vehicles.map Prod.fst
    exact updateVeh_map_fst _ _ _

theorem create_new_state_frame_witness :
    WFState demoGame.size (initState demoGame) ∧
      MoveFrame demoGame (initState demoGame)
        ('B', ⟨[(0, 2), (1, 2)], "vertical"⟩) Dir.down :=
  ⟨by decide,
    create_new_state_frame demoGame (initState demoGame) (by decide)
      ('B', ⟨[(0, 2), (1, 2)], "vertical"⟩) (by decide) Dir.down (by decide)
      (by decide)⟩

/-! ## The canonical state key (C7) -/

instance : IsTotal (Char × VehicleInfo) (fun a b => a.1 ≤ b.1) :=
  ⟨fun a b => le_total a.1 b.1⟩

instance : IsTrans (Char × VehicleInfo) (fun a b => a.1 ≤ b.1) :=
  ⟨fun _ _ _ hab hbc => le_trans hab hbc⟩

lemma sortVehicles_perm (vs : List (Char × VehicleInfo)) :
    (sortVehicles vs).Perm vs :=
  List.perm_insertionSort _ vs

lemma sortVehicles_sorted (vs : List (Char × VehicleInfo)) :
    (sortVehicles vs).Sorted fun a b => a.1 ≤ b.1 :=
  List.sorted_insertionSort _ vs

/-- Two by-key-sorted association lists with duplicate-free keys that are
permutations of each other are equal. -/
lemma sorted_perm_nodupkeys_eq :
    ∀ {l1 l2 : List (Char × VehicleInfo)}, l1.Perm l2 →
      (l1.map Prod.fst).Nodup →
      l1.Sorted (fun a b => a.1 ≤ b.1) → l2.Sorted (fun a b => a.1 ≤ b.1) →
      l1 = l2
  | [], l2, hp, _, _, _ => (List.Perm.nil_eq hp).symm.symm
  | a :: t1, l2, hp, hnd, hs1, hs2 => by
    cases l2 with
    | nil => exact absurd hp.symm (by simp)
    | cons b t2 =>
      rw [List.sorted_cons] at hs1 hs2
      rw [List.map_cons, List.nodup_cons] at hnd
      have hab : a = b := by
        have hmem_a : a ∈ b :: t2 := hp.mem_iff.mp (List.mem_cons_self a t1)
        have hmem_b : b ∈ a :: t1 := hp.symm.mem_iff.mp (List.mem_cons_self b t2)
        have h1 : a.1 ≤ b.1 := by
          rcases List.mem_cons.mp hmem_b with rfl | h
          · exact le_refl _
          · exact hs1.1 b h
        have h2 : b.1 ≤ a.1 := by
          rcases List.mem_cons.mp hmem_a with rfl | h
          · exact le_refl _
          · exact hs2.1 a h
        have hkey : a.1 = b.1 := le_antisymm h1 h2
        rcases List.mem_cons.mp hmem_b with rfl | h
        · rfl
        · exact absurd (hkey ▸ List.mem_map_of_mem Prod.fst h) hnd.1
      subst hab
      have ht := hp.cons_inv
      rw [sorted_perm_nodupkeys_eq ht hnd.2 hs1.2 hs2.2]

/-- The projection taken by `get_state_hash` keeps every field of a vehicle
entry, so it is injective. -/
lemma hashProj_injective :
    Function.Injective fun kv : Char × VehicleInfo =>
      (kv.1, kv.2.positions, kv.2.orientation) := by
  rintro ⟨a1, ⟨ap, ao⟩⟩ ⟨b1, ⟨bp, bo⟩⟩ h
  simp only [Prod.mk.injEq] at h
  rw [Prod.ext_iff]
  exact ⟨h.1, by rw [VehicleInfo.mk.injEq]; exact h.2⟩

lemma hash_eq_characterization (s1 s2 : PyState)
    (h1 : (s1.vehicles.map Prod.fst).Nodup)
    (h2 : (s2.vehicles.map Prod.fst).Nodup) :
    get_state_hash s1 = get_state_hash s2 ↔
      s1.board = s2.board ∧ s1.vehicles.Perm s2.vehicles := by
  unfold get_state_hash
  rw [Prod.ext_iff]
  simp only
  constructor
  · rintro ⟨hb, hv⟩
    refine ⟨hb, ?_⟩
    have hmaps : sortVehicles s1.vehicles = sortVehicles s2.vehicles :=
      List.map_injective_iff.mpr hashProj_injective hv
    have p1 := sortVehicles_perm s1.vehicles
    have p2 := sortVehicles_perm s2.vehicles
    rw [hmaps] at p1
    exact p1.symm.trans p2
  · rintro ⟨hb, hv⟩
    refine ⟨hb, ?_⟩
    have hperm : (sortVehicles s1.vehicles).Perm (sortVehicles s2.vehicles) :=
      ((sortVehicles_perm _).trans hv).trans (sortVehicles_perm _).symm
    have hnd1 : ((sortVehicles s1.vehicles).map Prod.fst).Nodup := by
      refine (List.Perm.nodup_iff ?_).mpr h1
      exact (sortVehicles_perm s1.vehicles).map Prod.fst
    rw [sorted_perm_nodupkeys_eq hperm hnd1 (sortVehicles_sorted _)
      (sortVehicles_sorted _)]

/-- **C7.** With duplicate-free vehicle identifiers (guaranteed by the Python
dict), two states receive equal canonical keys from `get_state_hash` iff they
have identical board contents and identical per-vehicle (positions,
orientation) data irrespective of vehicle-table order; any two configurations
differing in a board cell or in some vehicle's data receive different keys. -/
theorem get_state_hash_eq_iff (s1 s2 : PyState)
    (h1 : (s1.vehicles.map Prod.fst).Nodup)
    (h2 : (s2.vehicles.map Prod.fst).Nodup) :
    get_state_hash s1 = get_state_hash s2 ↔
      s1.board = s2.board ∧ s1.vehicles.Perm s2.vehicles :=
  hash_eq_characterization s1 s2 h1 h2

/-- A reordering of the demonstration vehicle table, for the key-equality
witness. -/
def demoVehiclesRev : List (Char × VehicleInfo) :=
  [('B', ⟨[(0, 2), (1, 2)], "vertical"⟩), ('X', ⟨[(1, 0), (1, 1)], "horizontal"⟩)]

theorem get_state_hash_eq_iff_witness :
    ((PyState.mk demoBoard demoVehicles).vehicles.map Prod.fst).Nodup ∧
      ((PyState.mk demoBoard demoVehiclesRev).vehicles.map Prod.fst).Nodup ∧
      (get_state_hash (PyState.mk demoBoard demoVehicles) =
          get_state_hash (PyState.mk demoBoard demoVehiclesRev) ↔
        (PyState.mk demoBoard demoVehicles).board =
            (PyState.mk demoBoard demoVehiclesRev).board ∧
          (PyState.mk demoBoard demoVehicles).vehicles.Perm
            (PyState.mk demoBoard demoVehiclesRev).vehicles) :=
  ⟨by decide, by decide,
    get_state_hash_eq_iff (PyState.mk demoBoard demoVehicles)
      (PyState.mk demoBoard demoVehiclesRev) (by decide) (by decide)⟩

/-! ## Reachability by legal move chains -/

/-- `ReachCost g s0 t c p`: some chain of `get_successors` moves leads from
`s0` to `t`, with `c` the sum of the moves' incremental costs and `p` exactly
the log the search would accumulate: one `(moved, direction, cumulative cost)`
triple per move. -/
inductive ReachCost (g : RushHourGame) (s0 : PyState) :
    PyState → Nat → List LogEntry → Prop where
  | refl : ReachCost g s0 s0 0 []
  | step {t u : PyState} {c e : Nat} {p : List LogEntry} :
      ReachCost g s0 t c p → (u, e) ∈ get_successors g t →
      ReachCost g s0 u (c + e)
        (p ++ [(findMoved t u, dirOf t u (findMoved t u), c + e)])

/-- `t` is reachable from `s0` by some legal move chain. -/
def Reach (g : RushHourGame) (s0 t : PyState) : Prop :=
  ∃ c p, ReachCost g s0 t c p

/-- Every element produced by the per-vehicle successor block is a
`create_new_state` of that vehicle, at cost length times unit cost. -/
lemma vehicleMoves_shape {g : RushHourGame} {s : PyState}
    {kv : Char × VehicleInfo} {pr : PyState × Nat} (h : pr ∈ vehicleMoves g s kv) :
    ∃ nps, nps.length = kv.2.positions.length ∧
      pr = (create_new_state s kv.1 nps,
        kv.2.positions.length * g.unit_cost) := by
  simp only [vehicleMoves] at h
  split at h
  · rcases List.mem_append.mp h with h' | h'
    · split at h'
      · split at h'
        · rw [List.mem_singleton] at h'
          exact ⟨_, by simp, h'⟩
        · exact absurd h' (List.not_mem_nil _)
      · exact absurd h' (List.not_mem_nil _)
    · split at h'
      · split at h'
        · rw [List.mem_singleton] at h'
          exact ⟨_, by simp, h'⟩
        · exact absurd h' (List.not_mem_nil _)
      · exact absurd h' (List.not_mem_nil _)
  · split at h
    · rcases List.mem_append.mp h with h' | h'
      · split at h'
        · split at h'
          · rw [List.mem_singleton] at h'
            exact ⟨_, by simp, h'⟩
          · exact absurd h' (List.not_mem_nil _)
        · exact absurd h' (List.not_mem_nil _)
      · split at h'
        · split at h'
          · rw [List.mem_singleton] at h'
            exact ⟨_, by simp, h'⟩
          · exact absurd h' (List.not_mem_nil _)
        · exact absurd h' (List.not_mem_nil _)
    · exact absurd h (List.not_mem_nil _)

/-- Every successor pair arises from some vehicle of the state. -/
lemma get_successors_shape {g : RushHourGame} {s : PyState} {pr : PyState × Nat}
    (h : pr ∈ get_successors g s) :
    ∃ kv ∈ s.vehicles, ∃ nps, nps.length = kv.2.positions.length ∧
      pr = (create_new_state s kv.1 nps,
        kv.2.positions.length * g.unit_cost) := by
  unfold get_successors at h
  rw [List.mem_flatMap] at h
  obtain ⟨kv, hkv, hm⟩ := h
  exact ⟨kv, hkv, vehicleMoves_shape hm⟩

/-- Successor generation never changes the list of vehicle identifiers. -/
lemma succ_map_fst {g : RushHourGame} {s : PyState} {pr : PyState × Nat}
    (h : pr ∈ get_successors g s) :
    pr.1.vehicles.map Prod.fst = s.vehicles.map Prod.fst := by
  obtain ⟨kv, hkv, nps, hlen, rfl⟩ := get_successors_shape h
  show (updateVeh s.vehicles kv.1 nps).map Prod.fst = s.vehicles.map Prod.fst
  exact updateVeh_map_fst _ _ _

/-- Reachable states keep the initial list of vehicle identifiers. -/
lemma reach_map_fst {g : RushHourGame} {s0 t : PyState} (h : Reach g s0 t) :
    t.vehicles.map Prod.fst = s0.vehicles.map Prod.fst := by
  obtain ⟨c, p, h⟩ := h
  induction h with
  | refl => rfl
  | step hr hmem ih =>
    have hm := succ_map_fst hmem
    simp only at hm
    rw [hm, ih]

lemma perm_eq_of_map_fst_eq :
    ∀ {l1 l2 : List (Char × VehicleInfo)}, l1.Perm l2 →
      l1.map Prod.fst = l2.map Prod.fst → (l1.map Prod.fst).Nodup → l1 = l2
  | [], l2, hp, _, _ => (List.Perm.nil_eq hp).symm.symm
  | a :: t1, l2, hp, hk, hnd => by
    cases l2 with
    | nil => exact absurd hp.symm (by simp)
    | cons b t2 =>
      rw [List.map_cons, List.map_cons] at hk
      rw [List.map_cons, List.nodup_cons] at hnd
      injection hk with hk1 hk2
      have hab : a = b := by
        have hmem_a : a ∈ b :: t2 := hp.mem_iff.mp (List.mem_cons_self a t1)
        rcases List.mem_cons.mp hmem_a with rfl | h
        · rfl
        · exact absurd (hk1 ▸ List.mem_map_of_mem Prod.fst h)
            (by rw [← hk2, ← hk1]; exact hnd.1)
      subst hab
      rw [perm_eq_of_map_fst_eq hp.cons_inv hk2 hnd.2]

/-- On states reachable from a common duplicate-free-keyed start, the
canonical key is injective: equal keys mean equal states. -/
lemma reach_key_inj {g : RushHourGame} {s0 : PyState}
    (hnd : (s0.vehicles.map Prod.fst).Nodup) {t1 t2 : PyState}
    (h1 : Reach g s0 t1) (h2 : Reach g s0 t2)
    (hk : get_state_hash t1 = get_state_hash t2) : t1 = t2 := by
  have k1 := reach_map_fst h1
  have k2 := reach_map_fst h2
  have hnd1 : (t1.vehicles.map Prod.fst).Nodup := by rw [k1]; exact hnd
  have hnd2 : (t2.vehicles.map Prod.fst).Nodup := by rw [k2]; exact hnd
  obtain ⟨hb, hperm⟩ := (hash_eq_characterization t1 t2 hnd1 hnd2).mp hk
  have hveq := perm_eq_of_map_fst_eq hperm (k1.trans k2.symm) hnd1
  obtain ⟨b1, v1⟩ := t1
  obtain ⟨b2, v2⟩ := t2
  simp only at hb hveq
  rw [hb, hveq]

/-! ## Frontier and repository operations -/

lemma popMin_none_iff (l : List FrontierEntry) : popMin l = none ↔ l = [] := by
  cases l with
  | nil => simp [popMin]
  | cons e es =>
    simp only [popMin]
    cases h : popMin es with
    | none => simp
    | some pr =>
      obtain ⟨m, rest⟩ := pr
      by_cases hle : e.1 ≤ m.1 <;> simp [hle]

lemma popMin_spec : ∀ {l : List FrontierEntry} {e : FrontierEntry}
    {rest : List FrontierEntry}, popMin l = some (e, rest) →
    l.Perm (e :: rest) ∧ ∀ x ∈ l, e.1 ≤ x.1
  | [], e, rest, h => by cases h
  | a :: es, e, rest, h => by
    simp only [popMin] at h
    cases hes : popMin es with
    | none =>
      simp only [hes] at h
      injection h with h
      injection h with h1 h2
      subst h1
      subst h2
      rw [popMin_none_iff] at hes
      subst hes
      exact ⟨List.Perm.refl _, by intro x hx; rw [List.mem_singleton] at hx; rw [hx]⟩
    | some pr =>
      obtain ⟨m, r⟩ := pr
      simp only [hes] at h
      obtain ⟨hperm, hmin⟩ := popMin_spec hes
      by_cases hle : a.1 ≤ m.1
      · rw [if_pos hle] at h
        injection h with h
        injection h with h1 h2
        subst h1
        subst h2
        refine ⟨List.Perm.refl _, ?_⟩
        intro x hx
        rcases List.mem_cons.mp hx with rfl | hx'
        · exact le_refl _
        · exact le_trans hle (hmin x hx')
      · rw [if_neg hle] at h
        injection h with h
        injection h with h1 h2
        subst h1
        subst h2
        constructor
        · exact (hperm.cons a).trans (List.Perm.swap m a r)
        · intro x hx
          rcases List.mem_cons.mp hx with rfl | hx'
          · omega
          · exact hmin x hx'

lemma lookupRepo_map_replace_self :
    ∀ (repo : Repo) (k : StateKey) (st : PyState), (∃ w ∈ repo, w.1 = k) →
      lookupRepo (repo.map fun e => if e.1 = k then (k, st) else e) k = some st
  | [], _, _, h => by
    obtain ⟨w, hw, _⟩ := h
    cases hw
  | e :: repo, k, st, h => by
    rw [List.map_cons]
    by_cases hek : e.1 = k
    · rw [if_pos hek]
      unfold lookupRepo
      rw [List.find?_cons_of_pos _ (by simp)]
      rfl
    · rw [if_neg hek]
      unfold lookupRepo
      rw [List.find?_cons_of_neg _ (by simpa using hek)]
      obtain ⟨w, hw, hwk⟩ := h
      rcases List.mem_cons.mp hw with rfl | hw'
      · exact absurd hwk hek
      · exact lookupRepo_map_replace_self repo k st ⟨w, hw', hwk⟩

lemma lookupRepo_map_replace_ne :
    ∀ (repo : Repo) (k : StateKey) (st : PyState) (k' : StateKey), k' ≠ k →
      lookupRepo (repo.map fun e => if e.1 = k then (k, st) else e) k' =
        lookupRepo repo k'
  | [], _, _, _, _ => rfl
  | e :: repo, k, st, k', hne => by
    rw [List.map_cons]
    by_cases hek : e.1 = k
    · rw [if_pos hek]
      unfold lookupRepo
      rw [List.find?_cons_of_neg _ (by simp; exact fun h => hne h.symm),
        List.find?_cons_of_neg _ (by
          simp only [decide_eq_true_eq]
          intro h
          exact hne (by rw [← h, hek]))]
      exact lookupRepo_map_replace_ne repo k st k' hne
    · rw [if_neg hek]
      by_cases hek' : e.1 = k'
      · unfold lookupRepo
        rw [List.find?_cons_of_pos _ (by simpa using hek'),
          List.find?_cons_of_pos _ (by simpa using hek')]
      · unfold lookupRepo
        rw [List.find?_cons_of_neg _ (by simpa using hek'),
          List.find?_cons_of_neg _ (by simpa using hek')]
        exact lookupRepo_map_replace_ne repo k st k' hne


lemma lookupRepo_append_single (repo : Repo) (k : StateKey) (st : PyState)
    (k' : StateKey) :
    lookupRepo (repo ++ [(k, st)]) k' =
      match lookupRepo repo k' with
      | some v => some v
      | none => if k = k' then some st else none := by
  induction repo with
  | nil =>
    show lookupRepo [(k, st)] k' = _
    unfold lookupRepo
    by_cases h : k = k'
    · rw [List.find?_cons_of_pos _ (by simpa using h)]
      simp [h]
    · rw [List.find?_cons_of_neg _ (by simpa using h)]
      simp [h]
  | cons e repo ih =>
    show lookupRepo (e :: (repo ++ [(k, st)])) k' = _
    unfold lookupRepo
    by_cases he : e.1 = k'
    · rw [List.find?_cons_of_pos _ (by simpa using he),
        List.find?_cons_of_pos _ (by simpa using he)]
      rfl
    · rw [List.find?_cons_of_neg _ (by simpa using he),
        List.find?_cons_of_neg _ (by simpa using he)]
      exact ih

/-- Dict-assignment semantics of the repository. -/
lemma lookupRepo_insertRepo (repo : Repo) (k : StateKey) (st : PyState)
    (k' : StateKey) :
    lookupRepo (insertRepo repo k st) k' =
      if k' = k then some st else lookupRepo repo k' := by
  unfold insertRepo
  by_cases hany : repo.any fun e => decide (e.1 = k)
  · rw [if_pos hany]
    rw [List.any_eq_true] at hany
    obtain ⟨w, hw, hwk⟩ := hany
    rw [decide_eq_true_eq] at hwk
    by_cases hk' : k' = k
    · subst hk'
      rw [if_pos rfl]
      exact lookupRepo_map_replace_self repo k' st ⟨w, hw, hwk⟩
    · rw [if_neg hk']
      exact lookupRepo_map_replace_ne repo k st k' hk'
  · rw [if_neg hany, lookupRepo_append_single]
    by_cases hk' : k' = k
    · subst hk'
      have hnone : lookupRepo repo k' = none := by
        unfold lookupRepo
        rw [List.find?_eq_none.mpr (by
          intro e he
          simp only [decide_eq_true_eq]
          intro hek
          exact hany (List.any_eq_true.mpr ⟨e, he, by simpa using hek⟩))]
        rfl
      rw [hnone, if_pos rfl]
    · rw [if_neg hk']
      cases h : lookupRepo repo k' with
      | some v => rfl
      | none => rw [if_neg (fun he => hk' he.symm)]

lemma lookupRepo_foldl_insert_sound :
    ∀ (children : List (FrontierEntry × PyState)) (repo : Repo) (k : StateKey)
      (st : PyState),
      lookupRepo (children.foldl (fun r c => insertRepo r c.1.2.1 c.2) repo) k =
        some st →
      lookupRepo repo k = some st ∨ ∃ c ∈ children, c.1.2.1 = k ∧ c.2 = st
  | [], repo, k, st, h => Or.inl h
  | c :: cs, repo, k, st, h => by
    rw [List.foldl_cons] at h
    rcases lookupRepo_foldl_insert_sound cs _ k st h with h' | ⟨c', hc', he⟩
    · rw [lookupRepo_insertRepo] at h'
      by_cases hk : k = c.1.2.1
      · rw [if_pos hk] at h'
        injection h' with h'
        exact Or.inr ⟨c, List.mem_cons_self c cs, hk.symm, h'⟩
      · rw [if_neg hk] at h'
        exact Or.inl h'
    · exact Or.inr ⟨c', List.mem_cons_of_mem c hc', he⟩

lemma lookupRepo_foldl_insert_isSome :
    ∀ (children : List (FrontierEntry × PyState)) (repo : Repo) (k : StateKey),
      (lookupRepo repo k).isSome →
      (lookupRepo (children.foldl (fun r c => insertRepo r c.1.2.1 c.2) repo)
        k).isSome
  | [], repo, k, h => h
  | c :: cs, repo, k, h => by
    rw [List.foldl_cons]
    refine lookupRepo_foldl_insert_isSome cs _ k ?_
    rw [lookupRepo_insertRepo]
    by_cases hk : k = c.1.2.1
    · rw [if_pos hk]
      rfl
    · rw [if_neg hk]
      exact h

lemma lookupRepo_foldl_insert_mem :
    ∀ (children : List (FrontierEntry × PyState)) (repo : Repo),
      ∀ c ∈ children,
        (lookupRepo (children.foldl (fun r c => insertRepo r c.1.2.1 c.2) repo)
          c.1.2.1).isSome
  | [], _, c, hc => absurd hc (List.not_mem_nil c)
  | c0 :: cs, repo, c, hc => by
    rw [List.foldl_cons]
    rcases List.mem_cons.mp hc with rfl | hc'
    · refine lookupRepo_foldl_insert_isSome cs _ c.1.2.1 ?_
      rw [lookupRepo_insertRepo, if_pos rfl]
      rfl
    · exact lookupRepo_foldl_insert_mem cs _ c hc'

/-- `n` is the minimum cost of any move chain from `s0` to `t`. -/
def IsDist (g : RushHourGame) (s0 t : PyState) (n : Nat) : Prop :=
  (∃ p, ReachCost g s0 t n p) ∧ ∀ m p, ReachCost g s0 t m p → n ≤ m

lemma exists_isDist_aux {g : RushHourGame} {s0 : PyState} :
    ∀ (c : Nat) (t : PyState), (∃ q, ReachCost g s0 t c q) →
      ∃ n, IsDist g s0 t n := by
  intro c
  induction c using Nat.strong_induction_on with
  | _ c ih =>
    intro t hex
    obtain ⟨p, hp⟩ := hex
    by_cases h : ∃ m, m < c ∧ ∃ q, ReachCost g s0 t m q
    · obtain ⟨m, hm, hq⟩ := h
      exact ih m hm t hq
    · push_neg at h
      refine ⟨c, ⟨p, hp⟩, ?_⟩
      intro m q hq
      by_contra hlt
      exact h m (by omega) q hq

lemma exists_isDist {g : RushHourGame} {s0 t : PyState} (h : Reach g s0 t) :
    ∃ n, IsDist g s0 t n := by
  obtain ⟨c, p, hc⟩ := h
  exact exists_isDist_aux c t ⟨p, hc⟩

lemma isDist_unique {g : RushHourGame} {s0 t : PyState} {n m : Nat}
    (hn : IsDist g s0 t n) (hm : IsDist g s0 t m) : n = m := by
  obtain ⟨⟨pn, hpn⟩, hminn⟩ := hn
  obtain ⟨⟨pm, hpm⟩, hminm⟩ := hm
  have h1 := hminn m pm hpm
  have h2 := hminm n pn hpn
  omega

/-- The invariant of the `uniform_cost_search` loop, tying the frontier,
explored set and repository to the reachable state space. -/
structure LoopInv (g : RushHourGame) (s0 : PyState)
    (frontier : List FrontierEntry) (explored : List StateKey) (repo : Repo) :
    Prop where
  frontier_sound : ∀ fe ∈ frontier,
    ∃ t, ReachCost g s0 t fe.1 fe.2.2 ∧ get_state_hash t = fe.2.1
  frontier_repo : ∀ fe ∈ frontier, (lookupRepo repo fe.2.1).isSome
  repo_sound : ∀ k st, lookupRepo repo k = some st →
    Reach g s0 st ∧ get_state_hash st = k
  explored_sound : ∀ k ∈ explored,
    ∃ t, Reach g s0 t ∧ get_state_hash t = k ∧ g.is_goal t = false
  explored_nodup : explored.Nodup
  inv_init : get_state_hash s0 ∈ explored ∨ (0, get_state_hash s0, []) ∈ frontier
  inv_closure : ∀ k ∈ explored, ∀ t, Reach g s0 t → get_state_hash t = k →
    ∀ pr ∈ get_successors g t, get_state_hash pr.1 ∈ explored ∨
      ∃ fe ∈ frontier, fe.2.1 = get_state_hash pr.1 ∧
        ∀ dt, IsDist g s0 t dt → fe.1 ≤ dt + pr.2

/-- The initial search configuration satisfies the invariant. -/
lemma loopInv_start (g : RushHourGame) :
    LoopInv g (initState g) [(0, get_state_hash (initState g), [])] []
      [(get_state_hash (initState g), initState g)] := by
  constructor
  · intro fe hfe
    rw [List.mem_singleton] at hfe
    subst hfe
    exact ⟨initState g, ReachCost.refl, rfl⟩
  · intro fe hfe
    rw [List.mem_singleton] at hfe
    subst hfe
    unfold lookupRepo
    rw [List.find?_cons_of_pos _ (by simp)]
    rfl
  · intro k st h
    unfold lookupRepo at h
    by_cases hk : get_state_hash (initState g) = k
    · rw [List.find?_cons_of_pos _ (by simpa using hk)] at h
      injection h with h
      subst h
      exact ⟨⟨0, [], ReachCost.refl⟩, hk⟩
    · rw [List.find?_cons_of_neg _ (by simpa using hk)] at h
      cases h
  · intro k hk
    cases hk
  · exact List.nodup_nil
  · exact Or.inr (List.mem_singleton_self _)
  · intro k hk
    cases hk

lemma mem_expandChildren {g : RushHourGame} {st : PyState} {tc : Nat}
    {p : List LogEntry} {explored' : List StateKey}
    {ce : FrontierEntry × PyState} :
    ce ∈ expandChildren g st tc p explored' ↔
      ∃ sc ∈ get_successors g st, get_state_hash sc.1 ∉ explored' ∧
        ce = ((tc + sc.2, get_state_hash sc.1,
          p ++ [(findMoved st sc.1, dirOf st sc.1 (findMoved st sc.1),
            tc + sc.2)]), sc.1) := by
  unfold expandChildren
  rw [List.mem_filterMap]
  constructor
  · rintro ⟨sc, hsc, hopt⟩
    by_cases hmem : get_state_hash sc.1 ∈ explored'
    · rw [if_pos hmem] at hopt
      cases hopt
    · rw [if_neg hmem] at hopt
      injection hopt with hopt
      exact ⟨sc, hsc, hmem, hopt.symm⟩
  · rintro ⟨sc, hsc, hmem, rfl⟩
    refine ⟨sc, hsc, ?_⟩
    rw [if_neg hmem]

/-- Any dischargeable path to a key outside the explored set is covered by
some frontier entry of no greater cost. -/
lemma reach_entry {g : RushHourGame} {s0 : PyState}
    {frontier : List FrontierEntry} {explored : List StateKey} {repo : Repo}
    (inv : LoopInv g s0 frontier explored repo)
    {t : PyState} {c : Nat} {p : List LogEntry} (hrc : ReachCost g s0 t c p)
    (hne : get_state_hash t ∉ explored) :
    ∃ fe ∈ frontier, fe.1 ≤ c := by
  induction hrc with
  | refl =>
    rcases inv.inv_init with h | h
    · exact absurd h hne
    · exact ⟨(0, get_state_hash s0, []), h, le_refl 0⟩
  | @step t u c e p hr hmem ih =>
    by_cases hT : get_state_hash t ∈ explored
    · rcases inv.inv_closure _ hT t ⟨c, p, hr⟩ rfl (u, e) hmem with h | ⟨fe, hfe, _, hfed⟩
      · exact absurd h hne
      · obtain ⟨dt, hdt⟩ := exists_isDist ⟨c, p, hr⟩
        have hdc := hdt.2 c p hr
        exact ⟨fe, hfe, le_trans (hfed dt hdt) (by omega)⟩
    · obtain ⟨fe, hfe, hle⟩ := ih hT
      exact ⟨fe, hfe, by omega⟩

/-- When the frontier is exhausted, every reachable state has been explored. -/
lemma explored_complete_of_frontier_empty {g : RushHourGame} {s0 : PyState}
    {explored : List StateKey} {repo : Repo}
    (inv : LoopInv g s0 [] explored repo) :
    ∀ t, Reach g s0 t → get_state_hash t ∈ explored := by
  intro t ht
  obtain ⟨c, p, hrc⟩ := ht
  induction hrc with
  | refl =>
    rcases inv.inv_init with h | h
    · exact h
    · cases h
  | @step t u c e p hr hmem ih =>
    rcases inv.inv_closure _ ih t ⟨c, p, hr⟩ rfl (u, e) hmem with h | ⟨fe, hfe, _⟩
    · exact h
    · cases hfe

/-- A newly popped minimum-cost entry carries the exact minimum distance of
its state. -/
lemma pop_optimal {g : RushHourGame} {s0 : PyState}
    {frontier : List FrontierEntry} {explored : List StateKey} {repo : Repo}
    (inv : LoopInv g s0 frontier explored repo)
    {e : FrontierEntry} {rest : List FrontierEntry}
    (hpop : popMin frontier = some (e, rest))
    (hnew : e.2.1 ∉ explored) {t : PyState}
    (ht : ReachCost g s0 t e.1 e.2.2) (hkey : get_state_hash t = e.2.1) :
    IsDist g s0 t e.1 := by
  refine ⟨⟨e.2.2, ht⟩, ?_⟩
  intro m q hq
  obtain ⟨fe, hfe, hle⟩ := reach_entry inv hq (by rwa [hkey])
  have := (popMin_spec hpop).2 fe hfe
  omega

/-- Discarding a lazily-deleted duplicate entry keeps the invariant. -/
lemma loopInv_discard {g : RushHourGame} {s0 : PyState}
    {frontier : List FrontierEntry} {explored : List StateKey} {repo : Repo}
    (inv : LoopInv g s0 frontier explored repo) {e : FrontierEntry}
    {rest : List FrontierEntry} (hpop : popMin frontier = some (e, rest))
    (hdup : e.2.1 ∈ explored) : LoopInv g s0 rest explored repo := by
  obtain ⟨hperm, hmin⟩ := popMin_spec hpop
  have hrest_sub : ∀ x ∈ rest, x ∈ frontier := fun x hx =>
    hperm.mem_iff.mpr (List.mem_cons_of_mem _ hx)
  have hmem_or : ∀ x ∈ frontier, x = e ∨ x ∈ rest := fun x hx =>
    List.mem_cons.mp (hperm.mem_iff.mp hx)
  constructor
  · exact fun fe hfe => inv.frontier_sound fe (hrest_sub fe hfe)
  · exact fun fe hfe => inv.frontier_repo fe (hrest_sub fe hfe)
  · exact inv.repo_sound
  · exact inv.explored_sound
  · exact inv.explored_nodup
  · rcases inv.inv_init with h | h
    · exact Or.inl h
    · rcases hmem_or _ h with he | hr
      · exact Or.inl (by rw [← he] at hdup; exact hdup)
      · exact Or.inr hr
  · intro k hk t ht hkey pr hpr
    rcases inv.inv_closure k hk t ht hkey pr hpr with h | ⟨fe, hfe, hfek, hfed⟩
    · exact Or.inl h
    · by_cases hprk : get_state_hash pr.1 ∈ explored
      · exact Or.inl hprk
      · rcases hmem_or _ hfe with rfl | hr
        · exact absurd (hfek ▸ hdup) hprk
        · exact Or.inr ⟨fe, hr, hfek, hfed⟩

/-- Expanding a newly popped non-goal state keeps the invariant. -/
lemma loopInv_expand {g : RushHourGame} {s0 : PyState}
    (hnd : (s0.vehicles.map Prod.fst).Nodup)
    {frontier : List FrontierEntry} {explored : List StateKey} {repo : Repo}
    (inv : LoopInv g s0 frontier explored repo)
    {tc : Nat} {k : StateKey} {p : List LogEntry} {rest : List FrontierEntry}
    (hpop : popMin frontier = some ((tc, k, p), rest))
    {st : PyState} (hlk : lookupRepo repo k = some st)
    (hnew : k ∉ explored) (hgoal : g.is_goal st = false) :
    LoopInv g s0
      (rest ++ (expandChildren g st tc p (k :: explored)).map (·.1))
      (k :: explored)
      ((expandChildren g st tc p (k :: explored)).foldl
        (fun r c => insertRepo r c.1.2.1 c.2) repo) := by
  obtain ⟨hperm, hmin⟩ := popMin_spec hpop
  have hpopmem : ((tc, k, p) : FrontierEntry) ∈ frontier :=
    hperm.mem_iff.mpr (List.mem_cons_self _ _)
  have hrest_sub : ∀ x ∈ rest, x ∈ frontier := fun x hx =>
    hperm.mem_iff.mpr (List.mem_cons_of_mem _ hx)
  have hmem_or : ∀ x ∈ frontier, x = (tc, k, p) ∨ x ∈ rest := fun x hx =>
    List.mem_cons.mp (hperm.mem_iff.mp hx)
  obtain ⟨t0, hrc0, hkey0⟩ := inv.frontier_sound _ hpopmem
  obtain ⟨hreach_st, hkey_st⟩ := inv.repo_sound k st hlk
  have hst_eq : t0 = st :=
    reach_key_inj hnd ⟨tc, p, hrc0⟩ hreach_st (by rw [hkey0, hkey_st])
  rw [hst_eq] at hrc0
  have hdist : IsDist g s0 st tc := pop_optimal inv hpop hnew hrc0 hkey_st
  constructor
  · intro fe hfe
    rcases List.mem_append.mp hfe with hfe | hfe
    · exact inv.frontier_sound fe (hrest_sub fe hfe)
    · rw [List.mem_map] at hfe
      obtain ⟨ce, hce, rfl⟩ := hfe
      rw [mem_expandChildren] at hce
      obtain ⟨sc, hsc, hscne, rfl⟩ := hce
      refine ⟨sc.1, ?_, rfl⟩
      exact ReachCost.step hrc0 (by rw [Prod.mk.eta]; exact hsc)
  · intro fe hfe
    rcases List.mem_append.mp hfe with hfe | hfe
    · exact lookupRepo_foldl_insert_isSome _ repo _
        (inv.frontier_repo fe (hrest_sub fe hfe))
    · rw [List.mem_map] at hfe
      obtain ⟨ce, hce, rfl⟩ := hfe
      exact lookupRepo_foldl_insert_mem _ repo ce hce
  · intro k' st' h
    rcases lookupRepo_foldl_insert_sound _ repo k' st' h with h' | ⟨c, hc, hck, hcs⟩
    · exact inv.repo_sound k' st' h'
    · rw [mem_expandChildren] at hc
      obtain ⟨sc, hsc, hscne, rfl⟩ := hc
      have hcs' : sc.1 = st' := hcs
      have hck' : get_state_hash sc.1 = k' := hck
      rw [← hcs']
      refine ⟨⟨tc + sc.2, _, ReachCost.step hrc0 (by rw [Prod.mk.eta]; exact hsc)⟩, hck'⟩
  · intro k' hk'
    rcases List.mem_cons.mp hk' with rfl | hk'
    · exact ⟨st, hreach_st, hkey_st, hgoal⟩
    · exact inv.explored_sound k' hk'
  · exact List.nodup_cons.mpr ⟨hnew, inv.explored_nodup⟩
  · rcases inv.inv_init with h | h
    · exact Or.inl (List.mem_cons_of_mem _ h)
    · rcases hmem_or _ h with he | hr
      · have hk0 : get_state_hash s0 = k :=
          congrArg (fun x : FrontierEntry => x.2.1) he
        exact Or.inl (by rw [hk0]; exact List.mem_cons_self _ _)
      · exact Or.inr (List.mem_append_left _ hr)
  · intro k' hk' t ht hkey pr hpr
    by_cases hkk : k' = k
    · subst hkk
      have ht_eq : t = st :=
        reach_key_inj hnd ht hreach_st (by rw [hkey, hkey_st])
      rw [ht_eq] at hpr ⊢
      by_cases hprk : get_state_hash pr.1 ∈ k' :: explored
      · exact Or.inl hprk
      · right
        refine ⟨(tc + pr.2, get_state_hash pr.1,
            p ++ [(findMoved st pr.1, dirOf st pr.1 (findMoved st pr.1),
              tc + pr.2)]), ?_, rfl, ?_⟩
        · refine List.mem_append_right _ ?_
          rw [List.mem_map]
          refine ⟨((tc + pr.2, get_state_hash pr.1,
              p ++ [(findMoved st pr.1, dirOf st pr.1 (findMoved st pr.1),
                tc + pr.2)]), pr.1), ?_, rfl⟩
          rw [mem_expandChildren]
          exact ⟨pr, hpr, hprk, rfl⟩
        · intro dt hdt
          have hdteq : dt = tc := isDist_unique hdt hdist
          omega
    · have hk2 : k' ∈ explored := by
        rcases List.mem_cons.mp hk' with h | h
        · exact absurd h hkk
        · exact h
      rcases inv.inv_closure k' hk2 t ht hkey pr hpr with h | ⟨fe, hfe, hfek, hfed⟩
      · exact Or.inl (List.mem_cons_of_mem _ h)
      · by_cases hprk : get_state_hash pr.1 = k
        · exact Or.inl (by rw [hprk]; exact List.mem_cons_self _ _)
        · rcases hmem_or _ hfe with he | hr
          · exfalso
            apply hprk
            rw [← hfek, he]
          · exact Or.inr ⟨fe, List.mem_append_left _ hr, hfek, hfed⟩

/-- Master soundness of the search loop: it never crashes, a returned
solution is a realizable move chain to a goal state of minimum cost, and a
no-solution return means no reachable state is a goal. -/
lemma ucsLoop_master {g : RushHourGame} {s0 : PyState}
    (hnd : (s0.vehicles.map Prod.fst).Nodup) :
    ∀ (fuel : Nat) (frontier : List FrontierEntry) (explored : List StateKey)
      (repo : Repo), LoopInv g s0 frontier explored repo →
      (ucsLoop g fuel frontier explored repo ≠ some SearchResult.crash) ∧
      (∀ p c, ucsLoop g fuel frontier explored repo =
          some (SearchResult.solution p c) →
        (∃ t, ReachCost g s0 t c p ∧ g.is_goal t = true) ∧
        ∀ t' c' p', ReachCost g s0 t' c' p' → g.is_goal t' = true → c ≤ c') ∧
      (ucsLoop g fuel frontier explored repo = some SearchResult.noSolution →
        ∀ t, Reach g s0 t → g.is_goal t = false) := by
  intro fuel
  induction fuel with
  | zero =>
    intro frontier explored repo inv
    refine ⟨by simp [ucsLoop], ?_, ?_⟩
    · intro p c h
      simp [ucsLoop] at h
    · intro h
      simp [ucsLoop] at h
  | succ fuel ih =>
    intro frontier explored repo inv
    cases hpop : popMin frontier with
    | none =>
      have hfr : frontier = [] := (popMin_none_iff frontier).mp hpop
      subst hfr
      have hres : ucsLoop g (fuel + 1) [] explored repo =
          some SearchResult.noSolution := rfl
      refine ⟨by rw [hres]; simp, ?_, ?_⟩
      · intro p c h
        rw [hres] at h
        simp at h
      · intro _ t ht
        obtain ⟨t', ht', hk', hg'⟩ :=
          inv.explored_sound _ (explored_complete_of_frontier_empty inv t ht)
        have he : t' = t := reach_key_inj hnd ht' ht hk'
        rw [← he]
        exact hg'
    | some pr =>
      obtain ⟨⟨tc, k, p⟩, rest⟩ := pr
      cases hlk : lookupRepo repo k with
      | none =>
        exfalso
        have hpm : ((tc, k, p) : FrontierEntry) ∈ frontier :=
          (popMin_spec hpop).1.mem_iff.mpr (List.mem_cons_self _ _)
        have hsome := inv.frontier_repo _ hpm
        rw [show ((tc, k, p) : FrontierEntry).2.1 = k from rfl, hlk] at hsome
        cases hsome
      | some st =>
        by_cases hdup : k ∈ explored
        · have hres : ucsLoop g (fuel + 1) frontier explored repo =
              ucsLoop g fuel rest explored repo := by
            simp only [ucsLoop, hpop, hlk]
            rw [if_pos hdup]
          rw [hres]
          exact ih rest explored repo (loopInv_discard inv hpop hdup)
        · by_cases hgoal : g.is_goal st = true
          · have hres : ucsLoop g (fuel + 1) frontier explored repo =
                some (SearchResult.solution p tc) := by
              simp only [ucsLoop, hpop, hlk]
              rw [if_neg hdup, if_pos hgoal]
            refine ⟨by rw [hres]; simp, ?_, ?_⟩
            · intro p' c' h
              rw [hres] at h
              injection h with h
              injection h with h1 h2
              subst h1
              subst h2
              have hpm : ((tc, k, p) : FrontierEntry) ∈ frontier :=
                (popMin_spec hpop).1.mem_iff.mpr (List.mem_cons_self _ _)
              obtain ⟨t0, hrc0, hkey0⟩ := inv.frontier_sound _ hpm
              obtain ⟨hreach_st, hkey_st⟩ := inv.repo_sound k st hlk
              have hst : t0 = st :=
                reach_key_inj hnd ⟨tc, p, hrc0⟩ hreach_st (by rw [hkey0, hkey_st])
              rw [hst] at hrc0
              constructor
              · exact ⟨st, hrc0, hgoal⟩
              · intro t' c' p' hrc' hg'
                have hne' : get_state_hash t' ∉ explored := by
                  intro hmem
                  obtain ⟨t'', ht'', hk'', hg''⟩ := inv.explored_sound _ hmem
                  have ht'eq : t'' = t' :=
                    reach_key_inj hnd ht'' ⟨c', p', hrc'⟩ hk''
                  rw [ht'eq, hg'] at hg''
                  cases hg''
                obtain ⟨fe, hfe, hle⟩ := reach_entry inv hrc' hne'
                have hmin := (popMin_spec hpop).2 fe hfe
                have hmin' : tc ≤ fe.1 := hmin
                omega
            · intro h
              rw [hres] at h
              simp at h
          · have hgoal' : g.is_goal st = false := by
              cases hg : g.is_goal st
              · rfl
              · exact absurd hg hgoal
            have hres : ucsLoop g (fuel + 1) frontier explored repo =
                ucsLoop g fuel
                  (rest ++ (expandChildren g st tc p (k :: explored)).map (·.1))
                  (k :: explored)
                  ((expandChildren g st tc p (k :: explored)).foldl
                    (fun r c => insertRepo r c.1.2.1 c.2) repo) := by
              simp only [ucsLoop, hpop, hlk]
              rw [if_neg hdup, if_neg hgoal]
            rw [hres]
            exact ih _ _ _ (loopInv_expand hnd inv hpop hlk hdup hgoal')

/-- A solvable demonstration game: `'X'` one cell short of the exit. -/
def solveGame : RushHourGame := RushHourGame.init
  [['.', '.', '.'], ['X', 'X', '.'], ['.', '.', '.']]
  [('X', ⟨[(1, 0), (1, 1)], "horizontal"⟩)] 1

/-- **C6.** Every `(successor, cost)` pair carries cost equal to the moved
vehicle's length times the configured `unit_cost`, whatever the direction;
and a total cost returned by `uniform_cost_search` is exactly the accumulated
sum of those incremental costs along the returned path: the returned
`(path, cost)` is realized by a move chain (`ReachCost`) whose cost field
adds up the successive successor costs and whose log is the returned path. -/
theorem successor_costs_and_total (g : RushHourGame) :
    (∀ s : PyState, ∀ pr ∈ get_successors g s,
      ∃ kv ∈ s.vehicles, ∃ nps, pr = (create_new_state s kv.1 nps,
        kv.2.positions.length * g.unit_cost)) ∧
    ((g.vehicles.map Prod.fst).Nodup → ∀ fuel p c,
      uniform_cost_search g fuel = some (SearchResult.solution p c) →
      ∃ t, ReachCost g (initState g) t c p ∧ g.is_goal t = true) := by
  constructor
  · intro s pr hpr
    obtain ⟨kv, hkv, nps, _, hpr2⟩ := get_successors_shape hpr
    exact ⟨kv, hkv, nps, hpr2⟩
  · intro hnd fuel p c h
    have hnd' : ((initState g).vehicles.map Prod.fst).Nodup := hnd
    exact ((ucsLoop_master hnd' fuel _ _ _ (loopInv_start g)).2.1 p c h).1

theorem successor_costs_and_total_witness :
    (solveGame.vehicles.map Prod.fst).Nodup ∧
      ∃ t, ReachCost solveGame (initState solveGame) t 2
          [(some 'X', "right", 2)] ∧ solveGame.is_goal t = true :=
  ⟨by decide,
    (successor_costs_and_total solveGame).2 (by decide) 3
      [(some 'X', "right", 2)] 2 (by decide)⟩

lemma is_goal_false_of_noX {g : RushHourGame} {s : PyState}
    (h : 'X' ∉ s.vehicles.map Prod.fst) : g.is_goal s = false := by
  cases hg : g.is_goal s with
  | false => rfl
  | true =>
    obtain ⟨info, hmem, _⟩ := (is_goal_eq_true_iff g s).mp hg
    exact absurd (List.mem_map_of_mem Prod.fst hmem) h

lemma ucsLoop_noX {g : RushHourGame} :
    ∀ (fuel : Nat) (frontier : List FrontierEntry) (explored : List StateKey)
      (repo : Repo),
      (∀ k st, lookupRepo repo k = some st → 'X' ∉ st.vehicles.map Prod.fst) →
      ∀ p c, ucsLoop g fuel frontier explored repo ≠
        some (SearchResult.solution p c) := by
  intro fuel
  induction fuel with
  | zero =>
    intro frontier explored repo hrepo p c
    simp [ucsLoop]
  | succ fuel ih =>
    intro frontier explored repo hrepo p c
    cases hpop : popMin frontier with
    | none =>
      simp only [ucsLoop, hpop]
      simp
    | some pr =>
      obtain ⟨⟨tc, k, pp⟩, rest⟩ := pr
      cases hlk : lookupRepo repo k with
      | none =>
        simp only [ucsLoop, hpop, hlk]
        simp
      | some st =>
        by_cases hdup : k ∈ explored
        · have hres : ucsLoop g (fuel + 1) frontier explored repo =
              ucsLoop g fuel rest explored repo := by
            simp only [ucsLoop, hpop, hlk]
            rw [if_pos hdup]
          rw [hres]
          exact ih rest explored repo hrepo p c
        · have hgoal : g.is_goal st = false :=
            is_goal_false_of_noX (hrepo k st hlk)
          have hres : ucsLoop g (fuel + 1) frontier explored repo =
              ucsLoop g fuel
                (rest ++ (expandChildren g st tc pp (k :: explored)).map (·.1))
                (k :: explored)
                ((expandChildren g st tc pp (k :: explored)).foldl
                  (fun r c => insertRepo r c.1.2.1 c.2) repo) := by
            simp only [ucsLoop, hpop, hlk]
            rw [if_neg hdup, if_neg (by rw [hgoal]; intro hfalse; cases hfalse)]
          rw [hres]
          refine ih _ _ _ ?_ p c
          intro k' st' h'
          rcases lookupRepo_foldl_insert_sound _ repo k' st' h' with h'' |
            ⟨ce, hce, _, hcs⟩
          · exact hrepo k' st' h''
          · rw [mem_expandChildren] at hce
            obtain ⟨sc, hsc, _, rfl⟩ := hce
            have hcs' : sc.1 = st' := hcs
            rw [← hcs']
            have hfst := succ_map_fst hsc
            simp only at hfst
            rw [hfst]
            exact hrepo k st hlk

/-- **C10.** The controlled-vehicle identifier is the hard-coded `'X'`: a
state with no `'X'` entry is never a goal, and on a game whose vehicle table
has no `'X'` the search can never return a claimed solution — only
no-solution (or, with too little fuel in this model, non-termination of the
loop). -/
theorem no_X_never_solved (g : RushHourGame)
    (hX : 'X' ∉ g.vehicles.map Prod.fst) :
    (∀ s : PyState, 'X' ∉ s.vehicles.map Prod.fst → g.is_goal s = false) ∧
    ∀ fuel p c, uniform_cost_search g fuel ≠
      some (SearchResult.solution p c) := by
  constructor
  · intro s hs
    exact is_goal_false_of_noX hs
  · intro fuel p c
    refine ucsLoop_noX fuel _ _ _ ?_ p c
    intro k st h
    unfold lookupRepo at h
    by_cases hk : get_state_hash (initState g) = k
    · rw [List.find?_cons_of_pos _ (by simpa using hk)] at h
      injection h with h
      rw [← h]
      exact hX
    · rw [List.find?_cons_of_neg _ (by simpa using hk)] at h
      cases h

/-- A game whose vehicle table has no controlled vehicle `'X'`. -/
def noXGame : RushHourGame := RushHourGame.init
  [['B', '.'], ['B', '.']] [('B', ⟨[(0, 0), (1, 0)], "vertical"⟩)] 1

theorem no_X_never_solved_witness :
    'X' ∉ noXGame.vehicles.map Prod.fst ∧
      ((∀ s : PyState, 'X' ∉ s.vehicles.map Prod.fst →
          noXGame.is_goal s = false) ∧
        ∀ fuel p c, uniform_cost_search noXGame fuel ≠
          some (SearchResult.solution p c)) :=
  ⟨by decide, no_X_never_solved noXGame (by decide)⟩

/-- **C2.** For every state, `is_goal` holds iff the controlled vehicle `'X'`
is horizontal and at least one of its occupied cells (not only its head) has
column `N - 1`, where `N` is the grid size fixed at construction; a vertical
controlled vehicle, or one none of whose cells reaches column `N - 1`, is
never reported as a goal. -/
theorem is_goal_iff_exit_column (board : Board)
    (vehicles : List (Char × VehicleInfo)) (uc : Nat) (s : PyState) :
    (RushHourGame.init board vehicles uc).is_goal s = true ↔
      ∃ info, ('X', info) ∈ s.vehicles ∧ info.orientation = "horizontal" ∧
        ∃ p ∈ info.positions, p.2 = (board.length : Int) - 1 := by
  rw [is_goal_eq_true_iff]; rfl

/-- A malformed example input: the declared board does not render the vehicle
table, and vehicles `'A'` and `'B'` overlap on cell `(0, 0)`. -/
def badBoard : Board := [['A', '.'], ['.', '.']]

/-- The overlapping vehicle table of the malformed example. -/
def badVehicles : List (Char × VehicleInfo) :=
  [('A', ⟨[(0, 0)], "horizontal"⟩), ('B', ⟨[(0, 0)], "horizontal"⟩)]

/-- **C9.** Construction does not fail fast on malformed input: `__init__`
performs no validation at all, so on a board/vehicle table whose vehicles
overlap (which violates the data-model invariant) it succeeds and returns the
plain record of its arguments with the derived fields. -/
theorem init_accepts_malformed_input :
    RushHourGame.init badBoard badVehicles 1 =
      { board := badBoard, vehicles := badVehicles, size := 2, exit_row := 1,
        exit_col := 1, unit_cost := 1 } ∧
    ¬ WFState 2 { board := badBoard, vehicles := badVehicles } :=
  ⟨rfl, by decide⟩

/-! ## Finiteness of the reachable state space -/

/-- Reachability preserves the state invariant. -/
lemma reach_WF {g : RushHourGame} {s0 : PyState} (hwf : WFState g.size s0) :
    ∀ t, Reach g s0 t → WFState g.size t := by
  intro t ht
  obtain ⟨c, p, hrc⟩ := ht
  induction hrc with
  | refl => exact hwf
  | @step t u c e p hr hmem ih =>
    exact succ_preserves_WF g t ih (u, e) hmem

/-- All lists of a given length over a finite set of cells. -/
def listsOf (S : Finset (Int × Int)) : Nat → Finset (List (Int × Int))
  | 0 => {[]}
  | n + 1 => S.biUnion fun b => (listsOf S n).image (b :: ·)

lemma mem_listsOf (S : Finset (Int × Int)) :
    ∀ (n : Nat) (l : List (Int × Int)),
      l ∈ listsOf S n ↔ l.length = n ∧ ∀ x ∈ l, x ∈ S
  | 0, l => by
    simp only [listsOf, Finset.mem_singleton]
    constructor
    · rintro rfl
      exact ⟨rfl, by intro x hx; cases hx⟩
    · rintro ⟨h, _⟩
      exact List.length_eq_zero.mp h
  | n + 1, l => by
    simp only [listsOf, Finset.mem_biUnion, Finset.mem_image]
    constructor
    · rintro ⟨b, hb, l2, hl2, rfl⟩
      obtain ⟨hlen, hmem⟩ := (mem_listsOf S n l2).mp hl2
      refine ⟨by simp [hlen], ?_⟩
      intro x hx
      rcases List.mem_cons.mp hx with rfl | hx2
      · exact hb
      · exact hmem x hx2
    · rintro ⟨hlen, hmem⟩
      cases l with
      | nil => cases hlen
      | cons b l2 =>
        refine ⟨b, hmem b (List.mem_cons_self b l2), l2, ?_, rfl⟩
        refine (mem_listsOf S n l2).mpr ⟨by simpa using hlen, ?_⟩
        intro x hx
        exact hmem x (List.mem_cons_of_mem b hx)

/-- A duplicate-free list whose elements are matched, one-to-one, to members
of a finite set is no longer than that set. -/
lemma length_le_card_of_rel {α β : Type} [DecidableEq β] :
    ∀ (l : List α) (S : Finset β) (R : α → β → Prop), l.Nodup →
      (∀ a ∈ l, ∃ b, R a b ∧ b ∈ S) →
      (∀ a1 a2 b, R a1 b → R a2 b → a1 = a2) →
      l.length ≤ S.card
  | [], S, R, _, _, _ => by simp
  | a :: l, S, R, hnd, hex, hinj => by
    obtain ⟨b, hRb, hbS⟩ := hex a (List.mem_cons_self a l)
    rw [List.nodup_cons] at hnd
    have hrec : l.length ≤ (S.erase b).card := by
      refine length_le_card_of_rel l (S.erase b) R hnd.2 ?_ hinj
      intro x hx
      obtain ⟨b2, hRb2, hb2S⟩ := hex x (List.mem_cons_of_mem a hx)
      refine ⟨b2, hRb2, Finset.mem_erase.mpr ⟨?_, hb2S⟩⟩
      intro hbe
      subst hbe
      exact hnd.1 (hinj x a b2 hRb2 hRb ▸ hx)
    have hcard := Finset.card_erase_of_mem hbS
    have hpos := Finset.card_pos.mpr ⟨b, hbS⟩
    rw [List.length_cons]
    omega

/-- A well-formed vehicle is determined by its orientation, length, and head
cell. -/
lemma wfVehicle_positions_det {N : Nat} {i1 i2 : VehicleInfo}
    (h1 : WFVehicle N i1) (h2 : WFVehicle N i2)
    (ho : i1.orientation = i2.orientation)
    (hl : i1.positions.length = i2.positions.length)
    (hh : i1.positions.headD (0, 0) = i2.positions.headD (0, 0)) : i1 = i2 := by
  obtain ⟨hL1, _, _, hcase1⟩ := h1
  obtain ⟨hL2, _, _, hcase2⟩ := h2
  obtain ⟨p1, o1⟩ := i1
  obtain ⟨p2, o2⟩ := i2
  simp only at ho hl hh hL1 hL2 hcase1 hcase2
  rcases hcase1 with ⟨ho1, hps1, _⟩ | ⟨ho1, hps1, _⟩ <;>
    rcases hcase2 with ⟨ho2, hps2, _⟩ | ⟨ho2, hps2, _⟩
  · have hpp : p1 = p2 := by
      rw [hps1, hps2, hh, hl]
    rw [hpp, ho]
  · rw [ho1, ho2] at ho
    exact absurd ho (by decide)
  · rw [ho1, ho2] at ho
    exact absurd ho (by decide)
  · have hpp : p1 = p2 := by
      rw [hps1, hps2, hh, hl]
    rw [hpp, ho]

/-- Two vehicle tables with well-formed entries, equal signatures (identifier,
orientation, length) and equal head cells are equal. -/
lemma vehicles_eq_of_sig_head {N : Nat} :
    ∀ {v1 v2 : List (Char × VehicleInfo)},
      (∀ kv ∈ v1, WFVehicle N kv.2) → (∀ kv ∈ v2, WFVehicle N kv.2) →
      v1.map (fun kv => (kv.1, kv.2.orientation, kv.2.positions.length)) =
        v2.map (fun kv => (kv.1, kv.2.orientation, kv.2.positions.length)) →
      v1.map (fun kv => kv.2.positions.headD (0, 0)) =
        v2.map (fun kv => kv.2.positions.headD (0, 0)) →
      v1 = v2
  | [], [], _, _, _, _ => rfl
  | [], b :: t2, _, _, hsig, _ => by cases hsig
  | a :: t1, [], _, _, hsig, _ => by cases hsig
  | a :: t1, b :: t2, h1, h2, hsig, hhead => by
    rw [List.map_cons, List.map_cons] at hsig hhead
    injection hsig with hs1 hs2
    injection hhead with hh1 hh2
    rw [Prod.mk.injEq, Prod.mk.injEq] at hs1
    obtain ⟨ha1, ho, hl⟩ := hs1
    have hab2 : a.2 = b.2 :=
      wfVehicle_positions_det (h1 a (List.mem_cons_self a t1))
        (h2 b (List.mem_cons_self b t2)) ho hl hh1
    have hab : a = b := Prod.ext ha1 hab2
    rw [hab, vehicles_eq_of_sig_head
      (fun kv hk => h1 kv (List.mem_cons_of_mem a hk))
      (fun kv hk => h2 kv (List.mem_cons_of_mem b hk)) hs2 hh2]

/-- One successor step preserves each vehicle's identifier, orientation and
length (given duplicate-free identifiers). -/
lemma succ_sig {g : RushHourGame} {s : PyState} {pr : PyState × Nat}
    (hnd : (s.vehicles.map Prod.fst).Nodup) (h : pr ∈ get_successors g s) :
    pr.1.vehicles.map (fun kv => (kv.1, kv.2.orientation, kv.2.positions.length)) =
      s.vehicles.map (fun kv => (kv.1, kv.2.orientation, kv.2.positions.length)) := by
  obtain ⟨kv, hkv, nps, hlen, rfl⟩ := get_successors_shape h
  show (updateVeh s.vehicles kv.1 nps).map _ = _
  unfold updateVeh
  rw [List.map_map]
  refine List.map_congr_left fun e he => ?_
  simp only [Function.comp_apply]
  by_cases hev : e.1 = kv.1
  · have hekv : e = kv := eq_of_mem_same_key hnd he hkv hev
    rw [if_pos hev]
    show (e.1, e.2.orientation, nps.length) =
      (e.1, e.2.orientation, e.2.positions.length)
    rw [hlen, hekv]
  · rw [if_neg hev]

/-- Reachable states keep each vehicle's identifier, orientation and length. -/
lemma reach_sig {g : RushHourGame} {s0 : PyState}
    (hnd : (s0.vehicles.map Prod.fst).Nodup) :
    ∀ t, Reach g s0 t →
      t.vehicles.map (fun kv => (kv.1, kv.2.orientation, kv.2.positions.length)) =
        s0.vehicles.map (fun kv => (kv.1, kv.2.orientation, kv.2.positions.length)) := by
  intro t ht
  obtain ⟨c, p, hrc⟩ := ht
  induction hrc with
  | refl => rfl
  | @step t u c e p hr hmem ih =>
    have hnd_t : (t.vehicles.map Prod.fst).Nodup := by
      rw [reach_map_fst ⟨c, p, hr⟩]
      exact hnd
    have hs := succ_sig hnd_t hmem
    simp only at hs
    rw [hs, ih]

/-- The list of vehicle head cells, in table order. -/
def headList (s : PyState) : List (Int × Int) :=
  s.vehicles.map fun kv => kv.2.positions.headD (0, 0)

/-- Along reachable well-formed states the head list stays inside the grid box
and keeps the initial number of vehicles. -/
lemma reach_headList_mem {g : RushHourGame} {s0 t : PyState}
    (hwf : WFState g.size s0) (ht : Reach g s0 t) :
    headList t ∈ listsOf
      (Finset.Icc ((0 : Int), (0 : Int))
        (((g.size : Int) - 1), ((g.size : Int) - 1)))
      s0.vehicles.length := by
  rw [mem_listsOf]
  constructor
  · show (t.vehicles.map _).length = _
    rw [List.length_map]
    have := congrArg List.length (reach_map_fst ht)
    simpa using this
  · intro x hx
    obtain ⟨kv, hkv, rfl⟩ := List.mem_map.mp hx
    have hv := ((reach_WF hwf t ht).2.2.1 kv hkv).2
    obtain ⟨r0, c0, L, hL, hr0, hc0, hlen, hcase⟩ := wfVehicle_elim hv
    rw [Finset.mem_Icc]
    rcases hcase with ⟨_, hps, hrN, hcL⟩ | ⟨_, hps, hcN, hrL⟩
    · rw [hps, headD_hRun hL]
      refine ⟨?_, ?_⟩ <;> rw [Prod.le_def] <;> constructor <;> simp <;> omega
    · rw [hps, headD_vRun hL]
      refine ⟨?_, ?_⟩ <;> rw [Prod.le_def] <;> constructor <;> simp <;> omega

/-- On states reachable from a well-formed start, the head list is
injective. -/
lemma reach_headList_inj {g : RushHourGame} {s0 : PyState}
    (hwf : WFState g.size s0) {t1 t2 : PyState}
    (h1 : Reach g s0 t1) (h2 : Reach g s0 t2)
    (hh : headList t1 = headList t2) : t1 = t2 := by
  have hnd := hwf.2.1
  have hsig := (reach_sig hnd t1 h1).trans (reach_sig hnd t2 h2).symm
  have hwf1 := reach_WF hwf t1 h1
  have hwf2 := reach_WF hwf t2 h2
  have hveq : t1.vehicles = t2.vehicles :=
    vehicles_eq_of_sig_head (N := g.size)
      (fun kv hk => (hwf1.2.2.1 kv hk).2)
      (fun kv hk => (hwf2.2.2.1 kv hk).2) hsig hh
  have hb : t1.board = t2.board := by
    rw [hwf1.1, hwf2.1, hveq]
  obtain ⟨b1, v1⟩ := t1
  obtain ⟨b2, v2⟩ := t2
  simp only at hveq hb
  rw [hveq, hb]

/-- Under the loop invariant, explored keys are matched one-to-one with head
lists of reachable states, so their number is bounded by the number of
possible head lists. -/
lemma explored_length_le {g : RushHourGame} {s0 : PyState}
    (hwf : WFState g.size s0)
    {frontier : List FrontierEntry} {explored : List StateKey} {repo : Repo}
    (inv : LoopInv g s0 frontier explored repo) :
    explored.length ≤ (listsOf (Finset.Icc ((0 : Int), (0 : Int))
      (((g.size : Int) - 1), ((g.size : Int) - 1))) s0.vehicles.length).card := by
  refine length_le_card_of_rel explored _
    (fun k b => ∃ t, Reach g s0 t ∧ get_state_hash t = k ∧ headList t = b)
    inv.explored_nodup ?_ ?_
  · intro k hk
    obtain ⟨t, ht, hkt, _⟩ := inv.explored_sound k hk
    exact ⟨headList t, ⟨t, ht, hkt, rfl⟩, reach_headList_mem hwf ht⟩
  · rintro k1 k2 b ⟨t1, ht1, hk1, hb1⟩ ⟨t2, ht2, hk2, hb2⟩
    have h12 := reach_headList_inj hwf ht1 ht2 (hb1.trans hb2.symm)
    rw [← hk1, ← hk2, h12]

/-- For a well-formed start, the search loop terminates: some finite fuel
makes `ucsLoop` return a result. The measure is lexicographic: unexplored
head lists first, then frontier length. -/
lemma ucsLoop_exists_fuel {g : RushHourGame} {s0 : PyState}
    (hwf : WFState g.size s0) :
    ∀ (m fl : Nat) (frontier : List FrontierEntry) (explored : List StateKey)
      (repo : Repo), LoopInv g s0 frontier explored repo →
      (listsOf (Finset.Icc ((0 : Int), (0 : Int))
          (((g.size : Int) - 1), ((g.size : Int) - 1)))
        s0.vehicles.length).card - explored.length ≤ m →
      frontier.length ≤ fl →
      ∃ fuel r, ucsLoop g fuel frontier explored repo = some r := by
  have hnd : (s0.vehicles.map Prod.fst).Nodup := hwf.2.1
  intro m
  induction m with
  | zero =>
    intro fl
    induction fl with
    | zero =>
      intro frontier explored repo inv hm hf
      have hfr : frontier = [] := List.length_eq_zero.mp (Nat.le_zero.mp hf)
      subst hfr
      exact ⟨1, SearchResult.noSolution, rfl⟩
    | succ fl ihf =>
      intro frontier explored repo inv hm hf
      cases hpop : popMin frontier with
      | none =>
        have hfr : frontier = [] := (popMin_none_iff frontier).mp hpop
        subst hfr
        exact ⟨1, SearchResult.noSolution, rfl⟩
      | some pr =>
        obtain ⟨⟨tc, k, p⟩, rest⟩ := pr
        cases hlk : lookupRepo repo k with
        | none =>
          refine ⟨1, SearchResult.crash, ?_⟩
          simp only [ucsLoop, hpop, hlk]
        | some st =>
          by_cases hdup : k ∈ explored
          · have hrest : rest.length ≤ fl := by
              have hle := (popMin_spec hpop).1.length_eq
              simp at hle
              omega
            obtain ⟨fuel, r, hr⟩ :=
              ihf rest explored repo (loopInv_discard inv hpop hdup) hm hrest
            refine ⟨fuel + 1, r, ?_⟩
            simp only [ucsLoop, hpop, hlk]
            rw [if_pos hdup]
            exact hr
          · by_cases hgoal : g.is_goal st = true
            · refine ⟨1, SearchResult.solution p tc, ?_⟩
              simp only [ucsLoop, hpop, hlk]
              rw [if_neg hdup, if_pos hgoal]
            · exfalso
              have hgoal2 : g.is_goal st = false := by
                cases hg : g.is_goal st
                · rfl
                · exact absurd hg hgoal
              have inv2 := loopInv_expand hnd inv hpop hlk hdup hgoal2
              have hb := explored_length_le hwf inv2
              rw [List.length_cons] at hb
              omega
  | succ m ihm =>
    intro fl
    induction fl with
    | zero =>
      intro frontier explored repo inv hm hf
      have hfr : frontier = [] := List.length_eq_zero.mp (Nat.le_zero.mp hf)
      subst hfr
      exact ⟨1, SearchResult.noSolution, rfl⟩
    | succ fl ihf =>
      intro frontier explored repo inv hm hf
      cases hpop : popMin frontier with
      | none =>
        have hfr : frontier = [] := (popMin_none_iff frontier).mp hpop
        subst hfr
        exact ⟨1, SearchResult.noSolution, rfl⟩
      | some pr =>
        obtain ⟨⟨tc, k, p⟩, rest⟩ := pr
        cases hlk : lookupRepo repo k with
        | none =>
          refine ⟨1, SearchResult.crash, ?_⟩
          simp only [ucsLoop, hpop, hlk]
        | some st =>
          by_cases hdup : k ∈ explored
          · have hrest : rest.length ≤ fl := by
              have hle := (popMin_spec hpop).1.length_eq
              simp at hle
              omega
            obtain ⟨fuel, r, hr⟩ :=
              ihf rest explored repo (loopInv_discard inv hpop hdup) hm hrest
            refine ⟨fuel + 1, r, ?_⟩
            simp only [ucsLoop, hpop, hlk]
            rw [if_pos hdup]
            exact hr
          · by_cases hgoal : g.is_goal st = true
            · refine ⟨1, SearchResult.solution p tc, ?_⟩
              simp only [ucsLoop, hpop, hlk]
              rw [if_neg hdup, if_pos hgoal]
            · have hgoal2 : g.is_goal st = false := by
                cases hg : g.is_goal st
                · rfl
                · exact absurd hg hgoal
              have inv2 := loopInv_expand hnd inv hpop hlk hdup hgoal2
              have hb := explored_length_le hwf inv2
              rw [List.length_cons] at hb
              have hmeas : (listsOf (Finset.Icc ((0 : Int), (0 : Int))
                  (((g.size : Int) - 1), ((g.size : Int) - 1)))
                s0.vehicles.length).card - (k :: explored).length ≤ m := by
                rw [List.length_cons]
                omega
              obtain ⟨fuel, r, hr⟩ := ihm _ _ _ _ inv2 hmeas (le_refl _)
              refine ⟨fuel + 1, r, ?_⟩
              simp only [ucsLoop, hpop, hlk]
              rw [if_neg hdup, if_neg hgoal]
              exact hr

/-! ## Optimality and termination of the search -/

/-- **C1.** For every well-formed solvable puzzle — some chain of legal unit
moves from the initial state reaches a goal state — the search terminates with
a solution whose returned total cost is realized by a move chain from the
initial state to a goal state and is minimum over all move chains from the
initial state to any goal state (the cost of a chain being the sum of its
moves' incremental costs). -/
theorem uniform_cost_search_optimal (g : RushHourGame)
    (hwf : WFState g.size (initState g))
    (hsolv : ∃ t c p, ReachCost g (initState g) t c p ∧ g.is_goal t = true) :
    ∃ fuel p c,
      uniform_cost_search g fuel = some (SearchResult.solution p c) ∧
      (∃ t, ReachCost g (initState g) t c p ∧ g.is_goal t = true) ∧
      ∀ t2 c2 p2, ReachCost g (initState g) t2 c2 p2 → g.is_goal t2 = true →
        c ≤ c2 := by
  have hnd : ((initState g).vehicles.map Prod.fst).Nodup := hwf.2.1
  obtain ⟨fuel, r, hr⟩ := ucsLoop_exists_fuel hwf
    ((listsOf (Finset.Icc ((0 : Int), (0 : Int))
        (((g.size : Int) - 1), ((g.size : Int) - 1)))
      (initState g).vehicles.length).card) 1 _ _ _ (loopInv_start g)
    (by simp) (by simp)
  have master := ucsLoop_master hnd fuel _ _ _ (loopInv_start g)
  cases r with
  | crash => exact absurd hr master.1
  | noSolution =>
    obtain ⟨t, c, p, hrc, hg⟩ := hsolv
    rw [master.2.2 hr t ⟨c, p, hrc⟩] at hg
    cases hg
  | solution p c =>
    obtain ⟨hex, hmin⟩ := master.2.1 p c hr
    exact ⟨fuel, p, c, hr, hex, hmin⟩

theorem uniform_cost_search_optimal_witness :
    WFState solveGame.size (initState solveGame) ∧
      ∃ fuel p c,
        uniform_cost_search solveGame fuel =
          some (SearchResult.solution p c) ∧
        (∃ t, ReachCost solveGame (initState solveGame) t c p ∧
          solveGame.is_goal t = true) ∧
        ∀ t2 c2 p2, ReachCost solveGame (initState solveGame) t2 c2 p2 →
          solveGame.is_goal t2 = true → c ≤ c2 :=
  ⟨by decide, uniform_cost_search_optimal solveGame (by decide)
    ⟨create_new_state (initState solveGame) 'X' [(1, 1), (1, 2)], 0 + 2, _,
      ReachCost.step ReachCost.refl (by decide), by decide⟩⟩

/-- Any state reachable from a member of a successor-closed set of states is
itself a member. -/
lemma reach_mem_closed {g : RushHourGame} {s0 : PyState} (S : List PyState)
    (h0 : s0 ∈ S)
    (hclosed : ∀ t ∈ S, ∀ pr ∈ get_successors g t, pr.1 ∈ S) :
    ∀ t, Reach g s0 t → t ∈ S := by
  intro t ht
  obtain ⟨c, p, hrc⟩ := ht
  induction hrc with
  | refl => exact h0
  | @step t u c e p hr hmem ih => exact hclosed t ih (u, e) hmem

/-- **C8.** For every well-formed puzzle none of whose reachable states is a
goal, the search terminates in finitely many pops — some finite fuel suffices
for `ucsLoop` to exhaust the frontier (the explored set over the finite state
space is the bound) — and returns the distinguished no-solution value
(modelling the code's `(None, float('inf'))`), never the error outcome: any
result the loop ever produces, at any fuel, is that no-solution value. -/
theorem search_terminates_no_solution (g : RushHourGame)
    (hwf : WFState g.size (initState g))
    (hnogoal : ∀ t, Reach g (initState g) t → g.is_goal t = false) :
    (∃ fuel, uniform_cost_search g fuel = some SearchResult.noSolution) ∧
    ∀ fuel r, uniform_cost_search g fuel = some r →
      r = SearchResult.noSolution := by
  have hnd : ((initState g).vehicles.map Prod.fst).Nodup := hwf.2.1
  constructor
  · obtain ⟨fuel, r, hr⟩ := ucsLoop_exists_fuel hwf
      ((listsOf (Finset.Icc ((0 : Int), (0 : Int))
          (((g.size : Int) - 1), ((g.size : Int) - 1)))
        (initState g).vehicles.length).card) 1 _ _ _ (loopInv_start g)
      (by simp) (by simp)
    have master := ucsLoop_master hnd fuel _ _ _ (loopInv_start g)
    cases r with
    | crash => exact absurd hr master.1
    | noSolution => exact ⟨fuel, hr⟩
    | solution p c =>
      obtain ⟨⟨t, hrc, hg⟩, _⟩ := master.2.1 p c hr
      rw [hnogoal t ⟨c, p, hrc⟩] at hg
      cases hg
  · intro fuel r hr
    have master := ucsLoop_master hnd fuel _ _ _ (loopInv_start g)
    cases r with
    | crash => exact absurd hr master.1
    | noSolution => rfl
    | solution p c =>
      obtain ⟨⟨t, hrc, hg⟩, _⟩ := master.2.1 p c hr
      rw [hnogoal t ⟨c, p, hrc⟩] at hg
      cases hg

/-- The only state other than the initial one reachable in the unsolvable
demonstration game: its blocking vehicle moved one cell down. -/
def demoStuck : PyState :=
  create_new_state (initState demoGame) 'B' [(1, 2), (2, 2)]

theorem search_terminates_no_solution_witness :
    WFState demoGame.size (initState demoGame) ∧
      ((∃ fuel,
          uniform_cost_search demoGame fuel = some SearchResult.noSolution) ∧
        ∀ fuel r, uniform_cost_search demoGame fuel = some r →
          r = SearchResult.noSolution) :=
  ⟨by decide, search_terminates_no_solution demoGame (by decide)
    (fun t ht => by
      have hmem := reach_mem_closed [initState demoGame, demoStuck]
        (by decide) (by decide) t ht
      have hgoals : ∀ x ∈ [initState demoGame, demoStuck],
          demoGame.is_goal x = false := by decide
      exact hgoals t hmem)⟩

end Duck
